import Mathlib

/-!
Shallow embedding of `minesweeper-bot/solver.py` (class `MinesweeperSolver`)
and verification of the specification's claims about it.

Modelling conventions:
* Python `int` is `Int` (coordinates may be negative and are never validated).
* The Python `dict[tuple[int,int], Cell]` is an association list that keeps
  insertion order: updating an existing key replaces the value in place,
  a new key is appended at the end — exactly CPython dict semantics.
* The Python `set` `known_mines` is a duplicate-free list; the solver only
  ever inserts coordinates that are not yet members, so list append models
  `set.add` faithfully on the reachable states.
* Python `float` arithmetic (risk scores) is modelled by exact rationals `ℚ`:
  the only float operations are division, addition and comparison of
  small quotients of machine integers, which we interpret exactly.
* `random.choice(safest)` is modelled by an arbitrary index `pick : Nat`
  reduced modulo the length of the slice, so theorems quantify over every
  possible outcome of the random tie-break.
-/

namespace Minesweeper

/-- `Cell` dataclass of `solver.py`. -/
structure Cell where
  row : Int
  col : Int
  is_revealed : Bool
  is_flagged : Bool
  is_mine : Bool
  adjacent_mines : Int
deriving Repr, DecidableEq

/-- `MoveAction` enum of `solver.py`. -/
inductive MoveAction where
  | reveal
  | flag
deriving Repr, DecidableEq

/-- `SolverMove` dataclass of `solver.py`. -/
structure SolverMove where
  row : Int
  col : Int
  action : MoveAction
  reason : String
deriving Repr, DecidableEq

/-- The mutable state of a `MinesweeperSolver` object. -/
structure Solver where
  rows : Int
  cols : Int
  mine_count : Int
  cells : List ((Int × Int) × Cell)
  known_mines : List (Int × Int)
deriving Repr, DecidableEq

/-- `MinesweeperSolver.__init__`. -/
def Solver.init (rows cols mine_count : Int) : Solver :=
  { rows := rows, cols := cols, mine_count := mine_count, cells := [], known_mines := [] }

/-- Ordered-dict upsert: replace in place if the key is present, else append. -/
def upsert : List ((Int × Int) × Cell) → (Int × Int) → Cell → List ((Int × Int) × Cell)
  | [], k, v => [(k, v)]
  | e :: rest, k, v => if e.fst = k then (k, v) :: rest else e :: upsert rest k v

/-- `MinesweeperSolver.update_cell`. -/
def Solver.update_cell (s : Solver) (row col : Int)
    (is_revealed is_flagged is_mine : Bool) (adjacent_mines : Int) : Solver :=
  let cell : Cell :=
    { row := row, col := col, is_revealed := is_revealed, is_flagged := is_flagged,
      is_mine := is_mine, adjacent_mines := adjacent_mines }
  { s with cells := upsert s.cells (row, col) cell }

/-- Ordered-dict lookup (`dict.get`). -/
def lookupCell : List ((Int × Int) × Cell) → (Int × Int) → Option Cell
  | [], _ => none
  | e :: rest, k => if e.fst = k then some e.snd else lookupCell rest k

/-- `MinesweeperSolver.get_cell`. -/
def Solver.get_cell (s : Solver) (row col : Int) : Option Cell :=
  lookupCell s.cells (row, col)

/-- The eight `(dr, dc)` offsets in the order the two Python loops produce
them (`dr` outer, `dc` inner, skipping `(0, 0)`). -/
def offsets : List (Int × Int) :=
  [(-1, -1), (-1, 0), (-1, 1), (0, -1), (0, 1), (1, -1), (1, 0), (1, 1)]

/-- `MinesweeperSolver.get_neighbors`: observed in-bounds neighbours, in
offset-scan order. -/
def Solver.get_neighbors (s : Solver) (row col : Int) : List Cell :=
  offsets.filterMap fun d =>
    let nr := row + d.1
    let nc := col + d.2
    if 0 ≤ nr ∧ nr < s.rows ∧ 0 ≤ nc ∧ nc < s.cols then s.get_cell nr nc else none

/-- Body of the `for` loop of `MinesweeperSolver._identify_mines`, acting on
the current `known_mines`. -/
def mineStep (s : Solver) (km : List (Int × Int)) (e : (Int × Int) × Cell) :
    List (Int × Int) :=
  if ¬e.snd.is_revealed ∨ e.snd.adjacent_mines = 0 then km
  else
    let neighbors := s.get_neighbors e.fst.1 e.fst.2
    let unrevealed := neighbors.filter fun n =>
      !n.is_revealed && decide ((n.row, n.col) ∉ km)
    let known_mine_count : Int :=
      (neighbors.filter fun n => decide ((n.row, n.col) ∈ km)).length
    let remaining_mines := e.snd.adjacent_mines - known_mine_count
    if 0 < remaining_mines ∧ (unrevealed.length : Int) = remaining_mines then
      km ++ unrevealed.map fun n => (n.row, n.col)
    else km

/-- `MinesweeperSolver._identify_mines`. -/
def Solver.identify_mines (s : Solver) : Solver :=
  { s with known_mines := s.cells.foldl (mineStep s) s.known_mines }

/-- Body of the `for` loop of `MinesweeperSolver._find_safe_cell` for one cell
of the mapping: the move it would `return`, if any. -/
def safeFromCell (s : Solver) (e : (Int × Int) × Cell) : Option SolverMove :=
  if ¬e.snd.is_revealed then none
  else
    let neighbors := s.get_neighbors e.fst.1 e.fst.2
    let known_mine_count : Int :=
      (neighbors.filter fun n => decide ((n.row, n.col) ∈ s.known_mines)).length
    if known_mine_count = e.snd.adjacent_mines then
      (neighbors.find? fun n =>
          !n.is_revealed && decide ((n.row, n.col) ∉ s.known_mines)).map fun n =>
        { row := n.row, col := n.col, action := MoveAction.reveal,
          reason := "Safe: (" ++ toString e.fst.1 ++ "," ++ toString e.fst.2 ++
            ") has all mines identified" }
    else none

/-- `MinesweeperSolver._find_safe_cell`. -/
def Solver.find_safe_cell (s : Solver) : Option SolverMove :=
  s.cells.findSome? (safeFromCell s)

/-- The local variable `known_mines` of the `_calculate_risk` loop at a
neighbour cell `nb`. -/
def knownCount (s : Solver) (nb : Cell) : Int :=
  (((s.get_neighbors nb.row nb.col).filter fun n =>
    decide ((n.row, n.col) ∈ s.known_mines)).length : Int)

/-- The local variable `unrevealed` of the `_calculate_risk` loop at a
neighbour cell `nb`. -/
def unrevCount (s : Solver) (nb : Cell) : Int :=
  (((s.get_neighbors nb.row nb.col).filter fun n =>
    !n.is_revealed && decide ((n.row, n.col) ∉ s.known_mines)).length : Int)

/-- The summand `mines_needed / unrevealed` of the `_calculate_risk` loop. -/
def localDensity (s : Solver) (nb : Cell) : ℚ :=
  ((nb.adjacent_mines - knownCount s nb : Int) : ℚ) / ((unrevCount s nb : Int) : ℚ)

/-- Body of the accumulation loop of `_calculate_risk` over one revealed
neighbour: accumulates `(total_risk, count)`. -/
def riskStep (s : Solver) (tc : ℚ × Nat) (nb : Cell) : ℚ × Nat :=
  if 0 < unrevCount s nb then (tc.1 + localDensity s nb, tc.2 + 1) else tc

/-- `MinesweeperSolver._calculate_risk`.  Python float arithmetic is modelled
exactly in `ℚ`; `x / 0 = 0` never arises on the paths the solver takes
(`unrevealed > 0` guards the local density, `count > 0` the average). -/
def Solver.calculate_risk (s : Solver) (row col : Int) : ℚ :=
  let neighbors := (s.get_neighbors row col).filter fun n => n.is_revealed
  if neighbors.isEmpty then (s.mine_count : ℚ) / ((s.rows : ℚ) * (s.cols : ℚ))
  else
    let acc := neighbors.foldl (riskStep s) (0, 0)
    if 0 < acc.2 then acc.1 / (acc.2 : ℚ) else 1 / 2

/-- The candidate list built by `MinesweeperSolver._make_guess`:
observed, unrevealed, not known-mine cells with their risk. -/
def Solver.guessCandidates (s : Solver) : List (Int × Int × ℚ) :=
  s.cells.filterMap fun e =>
    if ¬e.snd.is_revealed ∧ e.fst ∉ s.known_mines then
      some (e.fst.1, e.fst.2, s.calculate_risk e.fst.1 e.fst.2)
    else none

/-- Ascending-by-risk comparison used by `candidates.sort(key=lambda x: x[2])`. -/
def riskLE (a b : Int × Int × ℚ) : Prop := a.2.2 ≤ b.2.2

instance : DecidableRel riskLE := fun a b => inferInstanceAs (Decidable (a.2.2 ≤ b.2.2))

instance : IsTotal (Int × Int × ℚ) riskLE := ⟨fun a b => le_total a.2.2 b.2.2⟩

instance : IsTrans (Int × Int × ℚ) riskLE := ⟨fun _ _ _ h1 h2 => le_trans h1 h2⟩

/-- The reason string of a guess.  Python formats the float risk with
`f"Guess: {risk:.0%} risk"`; the rounding of the percentage (round half to
even in CPython) is abstracted to `round`, which differs only on exact
half-percent ties and is never relied on by any claim. -/
def guessReason (q : ℚ) : String :=
  "Guess: " ++ toString (round (q * 100) : ℤ) ++ "% risk"

/-- `MinesweeperSolver._make_guess`.  `list.sort` is Timsort, a stable
ascending sort, modelled by the stable `List.insertionSort`;
`random.choice(safest)` is modelled by the arbitrary index `pick`. -/
def Solver.make_guess (s : Solver) (pick : Nat) : Option SolverMove :=
  let candidates := s.guessCandidates
  if candidates.isEmpty then none
  else
    let sorted := candidates.insertionSort riskLE
    let safest := sorted.take 5
    let chosen := safest.getD (pick % safest.length) (0, 0, 0)
    some { row := chosen.1, col := chosen.2.1, action := MoveAction.reveal,
           reason := guessReason chosen.2.2 }

/-- `MinesweeperSolver.get_next_move`: returns the mutated state (the effect
of `_identify_mines` on `known_mines`) together with the returned move. -/
def Solver.get_next_move (s : Solver) (pick : Nat) : Solver × Option SolverMove :=
  let s1 := s.identify_mines
  match s1.find_safe_cell with
  | some safe_move => (s1, some safe_move)
  | none => (s1, s1.make_guess pick)

/-! ## Well-formedness of reachable states and spec-side vocabulary -/

/-- Well-formedness of the states reachable through `init` / `update_cell`:
the mapping keys are pairwise distinct and every stored `Cell` records its own
key in its `row` / `col` fields. -/
def WF (s : Solver) : Prop :=
  (s.cells.map Prod.fst).Nodup ∧ ∀ e ∈ s.cells, e.fst = (e.snd.row, e.snd.col)

instance (s : Solver) : Decidable (WF s) := by
  unfold WF; infer_instance

/-- Spec §4.1: a position within `[0, rows) × [0, cols)`. -/
def inBounds (s : Solver) (p : Int × Int) : Prop :=
  0 ≤ p.1 ∧ p.1 < s.rows ∧ 0 ≤ p.2 ∧ p.2 < s.cols

instance (s : Solver) (p : Int × Int) : Decidable (inBounds s p) := by
  unfold inBounds; infer_instance

/-- Spec §4.1: `p` is one of the up-to-8 orthogonal/diagonal positions
around `q`. -/
def adjacentTo (q p : Int × Int) : Prop :=
  p ≠ q ∧ (p.1 - q.1).natAbs ≤ 1 ∧ (p.2 - q.2).natAbs ≤ 1

instance (q p : Int × Int) : Decidable (adjacentTo q p) := by
  unfold adjacentTo; infer_instance

/-- Spec §4.1 `neighbors`: the observed entries of the mapping at in-bounds
positions adjacent to `q` (in mapping order, which the spec leaves free). -/
def specNeighborEntries (s : Solver) (q : Int × Int) : List ((Int × Int) × Cell) :=
  s.cells.filter fun e => decide (adjacentTo q e.fst ∧ inBounds s e.fst)

/-! ## Spec-side mine inference (§4.2, claim C1) -/

/-- Spec §4.2, `U`: coordinates of the observed neighbours of `q` that are
unrevealed and not already in `km`. -/
def specU (s : Solver) (km : List (Int × Int)) (q : Int × Int) : List (Int × Int) :=
  ((specNeighborEntries s q).filter fun e =>
    !e.snd.is_revealed && decide (e.fst ∉ km)).map Prod.fst

/-- Spec §4.2, `K`: how many observed neighbours of `q` are already in `km`. -/
def specK (s : Solver) (km : List (Int × Int)) (q : Int × Int) : Int :=
  (((specNeighborEntries s q).filter fun e => decide (e.fst ∈ km)).length : Int)

/-- Spec §4.2, the mine-inference rule at one revealed cell with hint
`N > 0`: with `remaining = N − K`, if `remaining > 0` and `|U| = remaining`,
every coordinate of `U` is added to `known_mines`. -/
def specMineStep (s : Solver) (km : List (Int × Int)) (e : (Int × Int) × Cell) :
    List (Int × Int) :=
  if e.snd.is_revealed ∧ 0 < e.snd.adjacent_mines ∧
      0 < e.snd.adjacent_mines - specK s km e.fst ∧
      ((specU s km e.fst).length : Int) = e.snd.adjacent_mines - specK s km e.fst then
    km ++ specU s km e.fst
  else km

/-- Spec §4.2, one single pass of mine inference over the board, in mapping
order, against the evolving known-mine set. -/
def specIdentifyMines (s : Solver) : List (Int × Int) :=
  s.cells.foldl (specMineStep s) s.known_mines

/-! ## Concrete boards used to witness the theorems -/

/-- A 3×3 board: centre revealed with hint 3 and exactly three observed
unrevealed neighbours (spec §8, mine-inference scenario). -/
def mineBoard : Solver :=
  ((((Solver.init 3 3 3).update_cell 1 1 true false false 3).update_cell
    0 0 false false false 0).update_cell 0 1 false false false 0).update_cell
    0 2 false false false 0

/-- A 3×3 board whose first-inserted observation `(0,1)` and later-inserted
`(0,0)` are both safe neighbours of the satisfied revealed cell `(1,1)`. -/
def orderBoard : Solver :=
  (((Solver.init 3 3 1).update_cell 0 1 false false false 0).update_cell
    0 0 false false false 0).update_cell 1 1 true false false 0

/-- A 2×2 board with one unrevealed cell next to a revealed cell whose hint 8
exceeds what its single unrevealed neighbour can hold. -/
def riskBoard : Solver :=
  ((Solver.init 2 2 1).update_cell 0 0 false false false 0).update_cell
    0 1 true false false 8

/-- A 2×2 board with one unrevealed cell next to a revealed hint-1 cell:
every hint is consistent with the observations. -/
def consistentBoard : Solver :=
  ((Solver.init 2 2 1).update_cell 0 0 false false false 0).update_cell
    0 1 true false false 1

/-- A 2×2 board with a single observed, unrevealed, flagged cell. -/
def guessBoard : Solver :=
  (Solver.init 2 2 1).update_cell 0 0 false true false 0

/-- Claim C10: re-observe every cell with an arbitrary flag state, every
other field unchanged. -/
def reflag (f : Int → Int → Bool) (s : Solver) : Solver :=
  { s with cells := s.cells.map fun e =>
      (e.fst, { e.snd with is_flagged := f e.snd.row e.snd.col }) }

/-- The mapping holds an unrevealed observation at `p`. -/
def isUnrevealedAt (s : Solver) (p : Int × Int) : Prop :=
  ∃ cell, lookupCell s.cells p = some cell ∧ cell.is_revealed = false

instance (s : Solver) (p : Int × Int) : Decidable (isUnrevealedAt s p) :=
  match h : lookupCell s.cells p with
  | some cell =>
    if hc : cell.is_revealed = false then
      isTrue ⟨cell, h, hc⟩
    else
      isFalse fun hcon => by
        obtain ⟨c2, hc2, hrev⟩ := hcon
        rw [h, Option.some.injEq] at hc2
        subst hc2
        exact hc hrev
  | none =>
    isFalse fun hcon => by
      obtain ⟨c2, hc2, -⟩ := hcon
      rw [h] at hc2
      cases hc2

/-- Claim C2: `p` is a qualifying safe coordinate: some revealed observed
cell has its hint equal to its count of known-mine observed neighbours, and
`p` is one of its observed, unrevealed, not-known-mine neighbours. -/
def safeCoord (s : Solver) (p : Int × Int) : Prop :=
  ∃ e ∈ s.cells, e.snd.is_revealed = true ∧
    specK s s.known_mines e.fst = e.snd.adjacent_mines ∧
    adjacentTo e.fst p ∧ inBounds s p ∧ isUnrevealedAt s p ∧ p ∉ s.known_mines

instance (s : Solver) (p : Int × Int) : Decidable (safeCoord s p) := by
  unfold safeCoord
  infer_instance

/-- Claim C2: the first qualifying neighbour coordinate of `q` in
offset-scan order — in bounds, observed unrevealed, not a known mine. -/
def firstQualNbr (s : Solver) (q : Int × Int) : Option (Int × Int) :=
  (offsets.map fun d => (q.1 + d.1, q.2 + d.2)).find? fun p =>
    decide (inBounds s p ∧ isUnrevealedAt s p ∧ p ∉ s.known_mines)

/-- Claim C2: the safe-cell scan returns from cell `C` exactly when `C` is
revealed, satisfied (`K = N`), and has at least one qualifying neighbour. -/
def producesAt (s : Solver) (e : (Int × Int) × Cell) : Prop :=
  e.snd.is_revealed = true ∧
  specK s s.known_mines e.fst = e.snd.adjacent_mines ∧
  (firstQualNbr s e.fst).isSome = true

instance (s : Solver) (e : (Int × Int) × Cell) : Decidable (producesAt s e) := by
  unfold producesAt
  infer_instance

/-- Spec §4.3: the local mine density of the revealed cell `R` observed at
`q`: `(R.adjacent_mines − known-mine-neighbours of R) / |unrevealed
non-mine neighbours of R|` (used only when the denominator is positive). -/
def specDensity (s : Solver) (q : Int × Int) (R : Cell) : ℚ :=
  ((R.adjacent_mines - specK s s.known_mines q : Int) : ℚ) /
    ((((specU s s.known_mines q).length : Int) : ℚ))

/-- Spec §4.3: the risk of a candidate cell at `p` — the global prior when no
observed revealed neighbour exists, otherwise the average local density over
the revealed neighbours with a positive unrevealed count, defaulting to 1/2
when none qualifies. -/
def specRisk (s : Solver) (p : Int × Int) : ℚ :=
  let revealed := (specNeighborEntries s p).filter fun e => e.snd.is_revealed
  if revealed = [] then (s.mine_count : ℚ) / ((s.rows : ℚ) * (s.cols : ℚ))
  else
    let qual := revealed.filter fun e => decide (0 < (specU s s.known_mines e.fst).length)
    if qual = [] then 1 / 2
    else (qual.map fun e => specDensity s e.fst e.snd).sum / (qual.length : ℚ)

/-- The guess move produced on `guessBoard` (global prior 1/4 = 25%). -/
def gMove : SolverMove :=
  { row := 0, col := 0, action := MoveAction.reveal, reason := "Guess: 25% risk" }

/-! ## Association-list and offset lemmas -/

theorem lookupCell_mem {l : List ((Int × Int) × Cell)} {k : Int × Int} {v : Cell}
    (h : lookupCell l k = some v) : (k, v) ∈ l := by
  induction l with
  | nil => simp [lookupCell] at h
  | cons e rest ih =>
    rw [lookupCell] at h
    split_ifs at h with hk
    · obtain rfl : e.snd = v := Option.some.inj h
      subst hk
      exact List.mem_cons_self _ _
    · exact List.mem_cons_of_mem _ (ih h)

theorem mem_lookupCell {l : List ((Int × Int) × Cell)} (hnd : (l.map Prod.fst).Nodup)
    {e : (Int × Int) × Cell} (h : e ∈ l) : lookupCell l e.fst = some e.snd := by
  induction l with
  | nil => simp at h
  | cons a rest ih =>
    simp only [List.map_cons, List.nodup_cons] at hnd
    rcases List.mem_cons.1 h with rfl | hmem
    · rw [lookupCell, if_pos rfl]
    · rw [lookupCell]
      split_ifs with hk
      · exact absurd (hk ▸ List.mem_map_of_mem Prod.fst hmem) hnd.1
      · exact ih hnd.2 hmem

theorem lookupCell_eq_some_iff {l : List ((Int × Int) × Cell)}
    (hnd : (l.map Prod.fst).Nodup) (k : Int × Int) (v : Cell) :
    lookupCell l k = some v ↔ (k, v) ∈ l :=
  ⟨lookupCell_mem, fun h => mem_lookupCell hnd h⟩

theorem lookupCell_isSome_iff {l : List ((Int × Int) × Cell)} (k : Int × Int) :
    (lookupCell l k).isSome = true ↔ k ∈ l.map Prod.fst := by
  induction l with
  | nil => simp [lookupCell]
  | cons a rest ih =>
    rw [lookupCell]
    split_ifs with hk
    · simp [hk]
    · simpa [Ne.symm hk] using ih

/-- `upsert` touches only the given key: lookups at other keys are unchanged. -/
theorem lookupCell_upsert_ne (l : List ((Int × Int) × Cell)) (k : Int × Int) (v : Cell)
    {q : Int × Int} (hq : q ≠ k) : lookupCell (upsert l k v) q = lookupCell l q := by
  induction l with
  | nil => simp [upsert, lookupCell, Ne.symm hq]
  | cons a rest ih =>
    rw [upsert]
    split_ifs with hk
    · rw [lookupCell, lookupCell, if_neg (fun h => hq h.symm),
        if_neg (fun h => hq (hk.symm.trans h).symm)]
    · rw [lookupCell, lookupCell, ih]

theorem lookupCell_upsert_self (l : List ((Int × Int) × Cell)) (k : Int × Int) (v : Cell) :
    lookupCell (upsert l k v) k = some v := by
  induction l with
  | nil => simp [upsert, lookupCell]
  | cons a rest ih =>
    rw [upsert]
    split_ifs with hk
    · rw [lookupCell, if_pos rfl]
    · rw [lookupCell, if_neg hk, ih]

theorem upsert_map_fst (l : List ((Int × Int) × Cell)) (k : Int × Int) (v : Cell) :
    (upsert l k v).map Prod.fst = if k ∈ l.map Prod.fst then l.map Prod.fst
      else l.map Prod.fst ++ [k] := by
  induction l with
  | nil => simp [upsert]
  | cons a rest ih =>
    rw [upsert]
    by_cases hk : a.fst = k
    · rw [if_pos hk, if_pos (by simp only [List.map_cons, List.mem_cons]; exact Or.inl hk.symm)]
      simp [hk]
    · rw [if_neg hk]
      by_cases hmem : k ∈ rest.map Prod.fst
      · rw [if_pos (by simp only [List.map_cons, List.mem_cons]; exact Or.inr hmem)]
        simp [ih, hmem]
      · rw [if_neg ?hne]
        case hne =>
          simp only [List.map_cons, List.mem_cons]
          rintro (h1 | h1)
          · exact hk h1.symm
          · exact hmem h1
        simp [ih, hmem]

theorem upsert_nodup_fst {l : List ((Int × Int) × Cell)} (hnd : (l.map Prod.fst).Nodup)
    (k : Int × Int) (v : Cell) : ((upsert l k v).map Prod.fst).Nodup := by
  rw [upsert_map_fst]
  split_ifs with hmem
  · exact hnd
  · refine List.Nodup.append hnd (List.nodup_singleton k) ?_
    intro x hx hx2
    rw [List.mem_singleton] at hx2
    exact hmem (hx2 ▸ hx)

theorem mem_upsert {l : List ((Int × Int) × Cell)} {k : Int × Int} {v : Cell}
    {e : (Int × Int) × Cell} (h : e ∈ upsert l k v) : e = (k, v) ∨ e ∈ l := by
  induction l with
  | nil => simpa [upsert] using h
  | cons a rest ih =>
    rw [upsert] at h
    split_ifs at h with hk
    · rcases List.mem_cons.1 h with rfl | hmem
      · exact Or.inl rfl
      · exact Or.inr (List.mem_cons_of_mem _ hmem)
    · rcases List.mem_cons.1 h with rfl | hmem
      · exact Or.inr (List.mem_cons_self _ _)
      · rcases ih hmem with h1 | h1
        · exact Or.inl h1
        · exact Or.inr (List.mem_cons_of_mem _ h1)

/-- The eight offsets are exactly the nonzero vectors of Chebyshev norm at
most 1. -/
theorem mem_offsets_iff (d : Int × Int) :
    d ∈ offsets ↔ d.1.natAbs ≤ 1 ∧ d.2.natAbs ≤ 1 ∧ d ≠ (0, 0) := by
  obtain ⟨a, b⟩ := d
  simp only [offsets, List.mem_cons, List.not_mem_nil, or_false, Prod.mk.injEq, ne_eq,
    not_and]
  omega

/-! ## Relating `get_neighbors` to the mapping-level neighbour description -/

theorem mem_get_neighbors_iff (s : Solver) (r c : Int) (n : Cell) :
    n ∈ s.get_neighbors r c ↔
      ∃ d ∈ offsets, inBounds s (r + d.1, c + d.2) ∧
        lookupCell s.cells (r + d.1, c + d.2) = some n := by
  simp only [Solver.get_neighbors, List.mem_filterMap, Solver.get_cell,
    Option.ite_none_right_eq_some, inBounds]

/-- Two mapping entries with the same key are equal when the keys are
pairwise distinct. -/
theorem entry_eq_of_fst_eq {l : List ((Int × Int) × Cell)}
    (hnd : (l.map Prod.fst).Nodup) {e e' : (Int × Int) × Cell}
    (he : e ∈ l) (he' : e' ∈ l) (h : e.fst = e'.fst) : e = e' := by
  have h1 := mem_lookupCell hnd he
  have h2 := mem_lookupCell hnd he'
  rw [h, h2] at h1
  obtain ⟨k, v⟩ := e
  obtain ⟨k2, v2⟩ := e'
  simp only at h
  simp only [Option.some.injEq] at h1
  rw [h, h1]

theorem nodup_get_neighbors (s : Solver) (hwf : WF s) (r c : Int) :
    (s.get_neighbors r c).Nodup := by
  apply List.Nodup.filterMap ?inj (by decide)
  case inj =>
    intro d d2 n hd hd2
    simp only [Option.mem_def, Option.ite_none_right_eq_some] at hd hd2
    have h1 : ((r + d.1, c + d.2) : Int × Int) = (n.row, n.col) :=
      hwf.2 _ (lookupCell_mem hd.2)
    have h2 : ((r + d2.1, c + d2.2) : Int × Int) = (n.row, n.col) :=
      hwf.2 _ (lookupCell_mem hd2.2)
    rw [← h2] at h1
    obtain ⟨a, b⟩ := d
    obtain ⟨a2, b2⟩ := d2
    simp only [Prod.mk.injEq] at h1 ⊢
    omega

theorem nodup_specNeighborEntries_snd (s : Solver) (hwf : WF s) (q : Int × Int) :
    ((specNeighborEntries s q).map Prod.snd).Nodup := by
  have hsub : List.Sublist (specNeighborEntries s q) s.cells := List.filter_sublist _
  have hnd : (specNeighborEntries s q).Nodup :=
    ((hwf.1.of_map Prod.fst).sublist hsub)
  refine hnd.map_on ?_
  intro e he e2 he2 hsnd
  exact entry_eq_of_fst_eq hwf.1 (hsub.mem he) (hsub.mem he2)
    (by rw [hwf.2 _ (hsub.mem he), hwf.2 _ (hsub.mem he2), hsnd])

/-- Under `WF`, the neighbour list computed with the eight offsets is a
permutation of the observed adjacent in-bounds entries of the mapping —
the spec's description of `neighbors`. -/
theorem get_neighbors_perm (s : Solver) (hwf : WF s) (r c : Int) :
    List.Perm (s.get_neighbors r c) ((specNeighborEntries s (r, c)).map Prod.snd) := by
  refine (List.perm_ext_iff_of_nodup (nodup_get_neighbors s hwf r c)
    (nodup_specNeighborEntries_snd s hwf (r, c))).2 ?_
  intro n
  rw [mem_get_neighbors_iff]
  constructor
  · rintro ⟨d, hd, hb, hl⟩
    have hmem := lookupCell_mem hl
    have hkey : ((r + d.1, c + d.2) : Int × Int) = (n.row, n.col) := hwf.2 _ hmem
    refine List.mem_map_of_mem Prod.snd (List.mem_filter.2 ⟨hmem, ?_⟩)
    rw [decide_eq_true_eq]
    rw [mem_offsets_iff] at hd
    refine ⟨⟨?_, ?_, ?_⟩, ?_⟩
    · obtain ⟨a, b⟩ := d
      simp only [Prod.mk.injEq, ne_eq] at hd ⊢
      intro hcon
      omega
    · simp only
      omega
    · simp only
      omega
    · simpa using hb
  · intro hn
    rw [List.mem_map] at hn
    obtain ⟨e, he, rfl⟩ := hn
    rw [specNeighborEntries, List.mem_filter, decide_eq_true_eq] at he
    obtain ⟨hecells, ⟨hne, ha1, ha2⟩, hbnd⟩ := he
    refine ⟨(e.fst.1 - r, e.fst.2 - c), ?_, ?_, ?_⟩
    · rw [mem_offsets_iff]
      refine ⟨by simpa using ha1, by simpa using ha2, ?_⟩
      obtain ⟨⟨k1, k2⟩, v⟩ := e
      simp only [Prod.mk.injEq, ne_eq] at hne ⊢
      intro hcon
      omega
    · have : ((r + (e.fst.1 - r), c + (e.fst.2 - c)) : Int × Int) = e.fst := by
        obtain ⟨⟨k1, k2⟩, v⟩ := e
        simp only [Prod.mk.injEq]
        constructor <;> omega
      rw [this]
      exact hbnd
    · have : ((r + (e.fst.1 - r), c + (e.fst.2 - c)) : Int × Int) = e.fst := by
        obtain ⟨⟨k1, k2⟩, v⟩ := e
        simp only [Prod.mk.injEq]
        constructor <;> omega
      rw [this]
      exact mem_lookupCell hwf.1 hecells

/-- Counting over the offset-scan neighbour list agrees with counting over
the mapping-level neighbour entries, for any predicate that reads only the
stored cell (stated with an entry-level predicate agreeing on the mapping). -/
theorem neighbors_filter_length_eq (s : Solver) (hwf : WF s) (r c : Int)
    (p : Cell → Bool) (q : ((Int × Int) × Cell) → Bool)
    (hpq : ∀ e ∈ s.cells, p e.snd = q e) :
    ((s.get_neighbors r c).filter p).length =
      ((specNeighborEntries s (r, c)).filter q).length := by
  rw [((get_neighbors_perm s hwf r c).filter p).length_eq, List.filter_map,
    List.length_map]
  congr 1
  apply List.filter_congr
  intro e he
  exact hpq e ((List.filter_sublist s.cells).subset he)

/-- The coordinates of the filtered neighbour list, as a set, agree with the
filtered mapping-level entry keys. -/
theorem neighbors_filter_coords_mem (s : Solver) (hwf : WF s) (r c : Int)
    (p : Cell → Bool) (q : ((Int × Int) × Cell) → Bool)
    (hpq : ∀ e ∈ s.cells, p e.snd = q e) (x : Int × Int) :
    (x ∈ ((s.get_neighbors r c).filter p).map fun n => (n.row, n.col)) ↔
      x ∈ ((specNeighborEntries s (r, c)).filter q).map Prod.fst := by
  rw [(((get_neighbors_perm s hwf r c).filter p).map fun n => (n.row, n.col)).mem_iff,
    List.filter_map]
  have hq : (specNeighborEntries s (r, c)).filter (p ∘ Prod.snd) =
      (specNeighborEntries s (r, c)).filter q := by
    apply List.filter_congr
    intro e he
    exact hpq e ((List.filter_sublist s.cells).subset he)
  rw [hq, List.map_map]
  constructor <;> intro hx <;> rw [List.mem_map] at hx ⊢ <;>
    obtain ⟨e, he, hex⟩ := hx <;> refine ⟨e, he, ?_⟩ <;>
    have hc := hwf.2 e ((List.filter_sublist s.cells).subset
      ((List.filter_sublist (specNeighborEntries s (r, c))).subset he))
  · rw [← hex]
    simp only [Function.comp_apply]
    exact hc
  · simp only [Function.comp_apply]
    rw [← hex, hc]

/-! ## Well-formedness is established by `init` and preserved -/

theorem WF_init (rows cols mine_count : Int) : WF (Solver.init rows cols mine_count) := by
  constructor <;> simp [Solver.init]

theorem WF_update_cell {s : Solver} (hwf : WF s) (row col : Int)
    (is_revealed is_flagged is_mine : Bool) (adjacent_mines : Int) :
    WF (s.update_cell row col is_revealed is_flagged is_mine adjacent_mines) := by
  refine ⟨upsert_nodup_fst hwf.1 _ _, ?_⟩
  intro e he
  rcases mem_upsert he with rfl | hmem
  · rfl
  · exact hwf.2 e hmem

theorem identify_mines_cells (s : Solver) : s.identify_mines.cells = s.cells := rfl

theorem WF_identify_mines {s : Solver} (hwf : WF s) : WF s.identify_mines := hwf

/-- One loop iteration of `_identify_mines` computes, up to set membership,
exactly the spec's one-cell rule, for any two membership-equal known-mine
accumulators. -/
theorem mineStep_memEq (s : Solver) (hwf : WF s) {km₁ km₂ : List (Int × Int)}
    (h : ∀ x, x ∈ km₁ ↔ x ∈ km₂) (e : (Int × Int) × Cell) (x : Int × Int) :
    x ∈ mineStep s km₁ e ↔ x ∈ specMineStep s km₂ e := by
  obtain ⟨⟨r, c⟩, cell⟩ := e
  have hK : ((s.get_neighbors r c).filter
      (fun n => decide ((n.row, n.col) ∈ km₁))).length
      = ((specNeighborEntries s (r, c)).filter
        (fun en => decide (en.fst ∈ km₂))).length := by
    apply neighbors_filter_length_eq s hwf
    intro en hen
    rw [decide_eq_decide, hwf.2 en hen]
    exact h _
  have hpq : ∀ en ∈ s.cells,
      (!en.snd.is_revealed && decide ((en.snd.row, en.snd.col) ∉ km₁))
        = (!en.snd.is_revealed && decide (en.fst ∉ km₂)) := by
    intro en hen
    have : decide ((en.snd.row, en.snd.col) ∉ km₁) = decide (en.fst ∉ km₂) := by
      rw [decide_eq_decide, hwf.2 en hen]
      exact not_congr (h _)
    rw [this]
  have hU : ((s.get_neighbors r c).filter
      (fun n => !n.is_revealed && decide ((n.row, n.col) ∉ km₁))).length
      = (specU s km₂ (r, c)).length := by
    rw [specU, List.length_map]
    exact neighbors_filter_length_eq s hwf r c _ _ hpq
  have hUm : ∀ y, (y ∈ ((s.get_neighbors r c).filter
      (fun n => !n.is_revealed && decide ((n.row, n.col) ∉ km₁))).map
        fun n => (n.row, n.col)) ↔ y ∈ specU s km₂ (r, c) := by
    intro y
    rw [specU]
    exact neighbors_filter_coords_mem s hwf r c _ _ hpq y
  rw [mineStep, specMineStep]
  simp only
  by_cases hrev : cell.is_revealed = true
  · by_cases hadj : cell.adjacent_mines = 0
    · rw [if_pos (Or.inr hadj), if_neg]
      · exact h x
      · rintro ⟨-, hpos, -, -⟩
        omega
    · rw [if_neg (by push_neg; exact ⟨hrev, hadj⟩)]
      have hKnonneg : (0 : Int) ≤ (((specNeighborEntries s (r, c)).filter
          (fun en => decide (en.fst ∈ km₂))).length : Int) := Int.ofNat_nonneg _
      by_cases hcond : 0 < cell.adjacent_mines - (((s.get_neighbors r c).filter
            (fun n => decide ((n.row, n.col) ∈ km₁))).length : Int)
          ∧ (((s.get_neighbors r c).filter
            (fun n => !n.is_revealed && decide ((n.row, n.col) ∉ km₁))).length : Int)
            = cell.adjacent_mines - (((s.get_neighbors r c).filter
              (fun n => decide ((n.row, n.col) ∈ km₁))).length : Int)
      · rw [if_pos hcond, if_pos]
        · simp only [List.mem_append]
          rw [h x, hUm x]
        · obtain ⟨hc1, hc2⟩ := hcond
          refine ⟨hrev, by omega, ?_, ?_⟩
          · simp only [specK]
            rw [← hK]
            omega
          · simp only [specK]
            rw [← hK, ← hU]
            omega
      · rw [if_neg hcond, if_neg]
        · exact h x
        · rintro ⟨-, -, hrem, hlen⟩
          simp only [specK] at hrem hlen
          rw [← hK] at hrem hlen
          rw [← hU] at hlen
          exact hcond ⟨hrem, hlen⟩
  · rw [if_pos (Or.inl (by simpa using hrev)), if_neg]
    · exact h x
    · rintro ⟨hcon, -, -, -⟩
      exact hrev hcon

/-- One pass of `_identify_mines` computes, up to set membership, the spec's
one-pass fold. -/
theorem identify_mines_foldl_memEq (s : Solver) (hwf : WF s)
    (l : List ((Int × Int) × Cell)) {km₁ km₂ : List (Int × Int)}
    (h : ∀ x, x ∈ km₁ ↔ x ∈ km₂) (x : Int × Int) :
    x ∈ l.foldl (mineStep s) km₁ ↔ x ∈ l.foldl (specMineStep s) km₂ := by
  induction l generalizing km₁ km₂ with
  | nil => exact h x
  | cons e rest ih =>
    rw [List.foldl_cons, List.foldl_cons]
    exact ih (fun y => mineStep_memEq s hwf h e y)
/-! ## Claim C1 -/

/-- **C1.**  A single call to `identify_mines` adds to `known_mines` exactly
the coordinates produced by the spec rule: scanning the mapping in order
against the evolving known-mine set, for every revealed cell `C` with
`adjacent_mines = N > 0`, with `U` the observed unrevealed neighbours of `C`
not already in `known_mines` and `K` the number of observed neighbours of `C`
already in `known_mines`, all of `U` is added exactly when `N − K > 0` and
`|U| = N − K`, and no other coordinate is ever added.  Stated as: membership
in the resulting `known_mines` coincides with membership in the set computed
by the spec-worded rule `specIdentifyMines`. -/
theorem claim_C1_identify_mines_follows_spec (s : Solver) (hwf : WF s) (x : Int × Int) :
    x ∈ s.identify_mines.known_mines ↔ x ∈ specIdentifyMines s :=
  identify_mines_foldl_memEq s hwf s.cells (fun _ => Iff.rfl) x

/-- **C1, witness.**  On `mineBoard` the hypotheses of `claim_C1` hold and
the deduced mine `(0, 2)` is produced on both sides. -/
theorem claim_C1_witness :
    WF mineBoard ∧
      (((0, 2) : Int × Int) ∈ mineBoard.identify_mines.known_mines ↔
        ((0, 2) : Int × Int) ∈ specIdentifyMines mineBoard) :=
  ⟨by decide, claim_C1_identify_mines_follows_spec mineBoard (by decide) (0, 2)⟩
/-! ## Count transfer and move-shape helper lemmas -/

theorem codeK_eq_specK (s : Solver) (hwf : WF s) (r c : Int) (km : List (Int × Int)) :
    (((s.get_neighbors r c).filter fun n => decide ((n.row, n.col) ∈ km)).length : Int)
      = specK s km (r, c) := by
  simp only [specK]
  norm_cast
  apply neighbors_filter_length_eq s hwf
  intro en hen
  rw [decide_eq_decide, hwf.2 en hen]

theorem codeU_eq_specU_length (s : Solver) (hwf : WF s) (r c : Int)
    (km : List (Int × Int)) :
    ((s.get_neighbors r c).filter fun n =>
      !n.is_revealed && decide ((n.row, n.col) ∉ km)).length
      = (specU s km (r, c)).length := by
  rw [specU, List.length_map]
  apply neighbors_filter_length_eq s hwf
  intro en hen
  have hd : decide ((en.snd.row, en.snd.col) ∉ km) = decide (en.fst ∉ km) := by
    rw [decide_eq_decide, hwf.2 en hen]
  rw [hd]

theorem findSome?_isSome_of_mem {α β : Type} {l : List α} {f : α → Option β} {a : α}
    (ha : a ∈ l) (h : (f a).isSome = true) : (l.findSome? f).isSome = true := by
  induction l with
  | nil => simp at ha
  | cons b rest ih =>
    cases hb : f b with
    | some v => simp [List.findSome?_cons, hb]
    | none =>
      rcases List.mem_cons.1 ha with rfl | hmem
      · rw [hb] at h
        simp at h
      · simpa [List.findSome?_cons, hb] using ih hmem

theorem safeFromCell_action {s : Solver} {e : (Int × Int) × Cell} {m : SolverMove}
    (h : safeFromCell s e = some m) : m.action = MoveAction.reveal := by
  simp only [safeFromCell] at h
  split_ifs at h
  · rw [Option.map_eq_some'] at h
    obtain ⟨n, -, hm⟩ := h
    rw [← hm]

theorem find_safe_cell_action {s : Solver} {m : SolverMove}
    (h : s.find_safe_cell = some m) : m.action = MoveAction.reveal := by
  obtain ⟨e, -, he⟩ := List.exists_of_findSome?_eq_some h
  exact safeFromCell_action he

theorem make_guess_action {s : Solver} {pick : Nat} {m : SolverMove}
    (h : s.make_guess pick = some m) : m.action = MoveAction.reveal := by
  simp only [Solver.make_guess] at h
  split_ifs at h
  have h2 := Option.some.inj h
  subst h2
  rfl

theorem make_guess_eq_none_iff (s : Solver) (pick : Nat) :
    s.make_guess pick = none ↔ s.guessCandidates = [] := by
  simp only [Solver.make_guess]
  split_ifs with h
  · simpa using List.isEmpty_iff.1 h
  · simp only [reduceCtorEq, false_iff]
    intro hcon
    exact h (by rw [hcon]; rfl)

/-! ## Claim C3 -/

/-- **C3.**  One call to `get_next_move` first runs mine inference (the
returned state is exactly the mine-inference update of the input state),
then returns the safe-cell-inference result if it is some move, otherwise
the guess result if a candidate exists (the guess is `none` exactly when the
candidate list is empty), and every returned move has action Reveal — never
Flag. -/
theorem claim_C3_move_selector (s : Solver) (pick : Nat) :
    (s.get_next_move pick).1 = s.identify_mines ∧
    (s.get_next_move pick).2 =
      (s.identify_mines.find_safe_cell).or (s.identify_mines.make_guess pick) ∧
    (s.identify_mines.make_guess pick = none ↔
      s.identify_mines.guessCandidates = []) ∧
    ∀ m, (s.get_next_move pick).2 = some m → m.action = MoveAction.reveal := by
  refine ⟨?_, ?_, make_guess_eq_none_iff _ _, ?_⟩
  · rw [Solver.get_next_move]
    cases h : s.identify_mines.find_safe_cell <;> simp [h]
  · rw [Solver.get_next_move]
    cases h : s.identify_mines.find_safe_cell <;> simp [h]
  · intro m hm
    rw [Solver.get_next_move] at hm
    cases h : s.identify_mines.find_safe_cell with
    | some m0 =>
      rw [h] at hm
      simp only [Option.some.injEq] at hm
      exact hm ▸ find_safe_cell_action h
    | none =>
      rw [h] at hm
      exact make_guess_action hm

/-- **C3, witness.**  On `guessBoard` the selector returns the guess move,
and the inner implication is discharged at that concrete move. -/
theorem claim_C3_witness :
    (guessBoard.get_next_move 0).2 = some gMove ∧ gMove.action = MoveAction.reveal := by
  have ha : (guessBoard.get_next_move 0).2 = some gMove := by
    have h5 : (guessBoard.get_next_move 0).2
        = some { row := 0, col := 0, action := MoveAction.reveal,
                 reason := guessReason (guessBoard.identify_mines.calculate_risk 0 0) } :=
      rfl
    have hr0 : guessBoard.identify_mines.calculate_risk 0 0
        = ((1 : Int) : ℚ) / (((2 : Int) : ℚ) * ((2 : Int) : ℚ)) := rfl
    have hr : guessBoard.identify_mines.calculate_risk 0 0 = 1 / 4 := by
      rw [hr0]
      norm_num
    rw [h5, hr, gMove]
    have hround : round ((1 : ℚ) / 4 * 100) = 25 := by
      rw [show ((1 : ℚ) / 4 * 100) = ((25 : ℤ) : ℚ) by norm_num, round_intCast]
    rw [guessReason, hround]
    rfl
  exact ⟨ha, (claim_C3_move_selector guessBoard 0).2.2.2 gMove ha⟩

/-! ## Claim C9 -/

/-- **C9.**  `update_cell` succeeds unconditionally and changes only the
mapping entry at `(row, col)`: afterwards `get_cell row col` holds exactly
the given field values, every other coordinate reads unchanged, and
`known_mines`, `rows`, `cols`, `mine_count` are untouched. -/
theorem claim_C9_update_cell_frame (s : Solver) (row col : Int)
    (is_revealed is_flagged is_mine : Bool) (adjacent_mines : Int) :
    (s.update_cell row col is_revealed is_flagged is_mine adjacent_mines).get_cell row col
        = some { row := row, col := col, is_revealed := is_revealed,
                 is_flagged := is_flagged, is_mine := is_mine,
                 adjacent_mines := adjacent_mines } ∧
    (∀ r2 c2, ((r2, c2) : Int × Int) ≠ (row, col) →
      (s.update_cell row col is_revealed is_flagged is_mine adjacent_mines).get_cell r2 c2
        = s.get_cell r2 c2) ∧
    (s.update_cell row col is_revealed is_flagged is_mine adjacent_mines).known_mines
      = s.known_mines ∧
    (s.update_cell row col is_revealed is_flagged is_mine adjacent_mines).rows = s.rows ∧
    (s.update_cell row col is_revealed is_flagged is_mine adjacent_mines).cols = s.cols ∧
    (s.update_cell row col is_revealed is_flagged is_mine adjacent_mines).mine_count
      = s.mine_count := by
  refine ⟨?_, ?_, rfl, rfl, rfl, rfl⟩
  · exact lookupCell_upsert_self s.cells (row, col) _
  · intro r2 c2 hne
    exact lookupCell_upsert_ne s.cells (row, col) _ hne

/-- **C9, witness.**  A concrete overwrite on `guessBoard`, with the frame
checked at the distinct coordinate `(1, 1)`. -/
theorem claim_C9_witness :
    (guessBoard.update_cell 0 0 true false false 2).get_cell 0 0
        = some { row := 0, col := 0, is_revealed := true, is_flagged := false,
                 is_mine := false, adjacent_mines := 2 } ∧
    (guessBoard.update_cell 0 0 true false false 2).get_cell 1 1
      = guessBoard.get_cell 1 1 :=
  ⟨(claim_C9_update_cell_frame guessBoard 0 0 true false false 2).1,
    (claim_C9_update_cell_frame guessBoard 0 0 true false false 2).2.1 1 1 (by decide)⟩
/-! ## Monotonicity and key-subset lemmas for mine inference -/

theorem mineStep_mem_of_mem (s : Solver) (km : List (Int × Int))
    (e : (Int × Int) × Cell) {p : Int × Int} (hp : p ∈ km) : p ∈ mineStep s km e := by
  simp only [mineStep]
  split_ifs <;> simp [hp]

theorem foldl_mineStep_mono (s : Solver) (l : List ((Int × Int) × Cell))
    (km : List (Int × Int)) {p : Int × Int} (hp : p ∈ km) :
    p ∈ l.foldl (mineStep s) km := by
  induction l generalizing km with
  | nil => exact hp
  | cons e rest ih => exact ih _ (mineStep_mem_of_mem s km e hp)

theorem mineStep_mem_keys (s : Solver) (hwf : WF s) (km : List (Int × Int))
    (e : (Int × Int) × Cell) {p : Int × Int} (hp : p ∈ mineStep s km e) :
    p ∈ km ∨ p ∈ s.cells.map Prod.fst := by
  simp only [mineStep] at hp
  split_ifs at hp
  · exact Or.inl hp
  · rcases List.mem_append.1 hp with h1 | h1
    · exact Or.inl h1
    · right
      rw [List.mem_map] at h1
      obtain ⟨n, hn, rfl⟩ := h1
      have hmem := (List.filter_sublist _).subset hn
      rw [mem_get_neighbors_iff] at hmem
      obtain ⟨d, -, -, hl⟩ := hmem
      have hkey := hwf.2 _ (lookupCell_mem hl)
      rw [← hkey]
      exact List.mem_map_of_mem Prod.fst (lookupCell_mem hl)
  · exact Or.inl hp

theorem foldl_mineStep_keys (s : Solver) (hwf : WF s)
    (l : List ((Int × Int) × Cell)) (km : List (Int × Int))
    (hsub : ∀ p ∈ km, p ∈ s.cells.map Prod.fst) :
    ∀ p ∈ l.foldl (mineStep s) km, p ∈ s.cells.map Prod.fst := by
  induction l generalizing km with
  | nil => exact hsub
  | cons e rest ih =>
    refine ih _ ?_
    intro p hp
    rcases mineStep_mem_keys s hwf km e hp with h1 | h1
    · exact hsub p h1
    · exact h1

/-! ## Shape of the moves produced by the two searches -/

theorem find_safe_cell_mem {s : Solver} {m : SolverMove} (hwf : WF s)
    (h : s.find_safe_cell = some m) :
    ∃ cell, lookupCell s.cells (m.row, m.col) = some cell ∧
      cell.is_revealed = false ∧ (m.row, m.col) ∉ s.known_mines := by
  obtain ⟨e, he, hse⟩ := List.exists_of_findSome?_eq_some h
  simp only [safeFromCell] at hse
  split_ifs at hse
  rw [Option.map_eq_some'] at hse
  obtain ⟨n, hn, hm⟩ := hse
  have hmem := List.mem_of_find?_eq_some hn
  have hpred := List.find?_some hn
  rw [Bool.and_eq_true, Bool.not_eq_true', decide_eq_true_eq] at hpred
  rw [mem_get_neighbors_iff] at hmem
  obtain ⟨d, -, -, hl⟩ := hmem
  have hkey := hwf.2 _ (lookupCell_mem hl)
  subst hm
  dsimp only
  refine ⟨n, ?_, hpred.1, hpred.2⟩
  rw [← hkey]
  exact hl

theorem make_guess_mem {s : Solver} {pick : Nat} {m : SolverMove} (hwf : WF s)
    (h : s.make_guess pick = some m) :
    ∃ cell, lookupCell s.cells (m.row, m.col) = some cell ∧
      cell.is_revealed = false ∧ (m.row, m.col) ∉ s.known_mines := by
  simp only [Solver.make_guess] at h
  split_ifs at h with hne
  have h2 := Option.some.inj h
  subst h2
  dsimp only
  have hcne : s.guessCandidates ≠ [] := fun hc => hne (by rw [hc]; rfl)
  have hlen : 0 < ((s.guessCandidates.insertionSort riskLE).take 5).length := by
    rw [List.length_take, List.length_insertionSort]
    have hlen2 : 0 < s.guessCandidates.length := List.length_pos.2 hcne
    omega
  have hidx := Nat.mod_lt pick hlen
  have hgd := List.getD_eq_getElem ((s.guessCandidates.insertionSort riskLE).take 5)
    (0, 0, 0) hidx
  have hctake : ((s.guessCandidates.insertionSort riskLE).take 5).getD
      (pick % ((s.guessCandidates.insertionSort riskLE).take 5).length) (0, 0, 0)
      ∈ (s.guessCandidates.insertionSort riskLE).take 5 := by
    rw [hgd]
    exact List.getElem_mem hidx
  set chosen := ((s.guessCandidates.insertionSort riskLE).take 5).getD
    (pick % ((s.guessCandidates.insertionSort riskLE).take 5).length) (0, 0, 0) with hch
  have hcand := (List.perm_insertionSort riskLE s.guessCandidates).mem_iff.1
    (List.take_subset 5 _ hctake)
  rw [Solver.guessCandidates, List.mem_filterMap] at hcand
  obtain ⟨e, he, hee⟩ := hcand
  rw [Option.ite_none_right_eq_some, Option.some.injEq] at hee
  obtain ⟨⟨hrev, hkm⟩, hee⟩ := hee
  rw [← hee]
  dsimp only
  have heta : ((e.fst.1, e.fst.2) : Int × Int) = e.fst := rfl
  rw [heta]
  refine ⟨e.snd, mem_lookupCell hwf.1 he, ?_, hkm⟩
  rw [Bool.not_eq_true] at hrev
  exact hrev

/-! ## Claim C7 -/

/-- **C7.**  The conjoined invariant is preserved by every state-touching
operation: `update_cell` never changes `known_mines` and keeps it a subset of
the mapping keys (the mapping only grows); `identify_mines` never removes a
coordinate from `known_mines` and only adds coordinates that are present in
the mapping; `get_next_move` performs exactly the `identify_mines` state
change.  (`get_cell`, `get_neighbors`, `find_safe_cell` and `make_guess` are
pure in this embedding: they return values and no state.) -/
theorem claim_C7_known_mines_invariant (s : Solver) (hwf : WF s)
    (hsub : ∀ p ∈ s.known_mines, p ∈ s.cells.map Prod.fst) :
    (∀ row col ir ifl im am,
      (s.update_cell row col ir ifl im am).known_mines = s.known_mines ∧
      ∀ p ∈ (s.update_cell row col ir ifl im am).known_mines,
        p ∈ (s.update_cell row col ir ifl im am).cells.map Prod.fst) ∧
    (∀ p ∈ s.known_mines, p ∈ s.identify_mines.known_mines) ∧
    (∀ p ∈ s.identify_mines.known_mines, p ∈ s.identify_mines.cells.map Prod.fst) ∧
    (∀ pick, (s.get_next_move pick).1 = s.identify_mines ∧
      ∀ p ∈ s.known_mines, p ∈ (s.get_next_move pick).1.known_mines) := by
  refine ⟨?_, ?_, ?_, ?_⟩
  · intro row col ir ifl im am
    refine ⟨rfl, ?_⟩
    intro p hp
    have h1 := hsub p hp
    show p ∈ (upsert s.cells (row, col) _).map Prod.fst
    rw [upsert_map_fst]
    split_ifs
    · exact h1
    · exact List.mem_append_left _ h1
  · intro p hp
    exact foldl_mineStep_mono s s.cells s.known_mines hp
  · exact foldl_mineStep_keys s hwf s.cells s.known_mines hsub
  · intro pick
    have h1 : (s.get_next_move pick).1 = s.identify_mines := by
      rw [Solver.get_next_move]
      cases h : s.identify_mines.find_safe_cell <;> simp [h]
    refine ⟨h1, ?_⟩
    intro p hp
    rw [h1]
    exact foldl_mineStep_mono s s.cells s.known_mines hp

/-- **C7, witness.** -/
theorem claim_C7_witness :
    WF mineBoard ∧
    (mineBoard.update_cell 2 2 true false false 1).known_mines = mineBoard.known_mines :=
  ⟨by decide,
    ((claim_C7_known_mines_invariant mineBoard (by decide) (by decide)).1
      2 2 true false false 1).1⟩

/-! ## Claim C8 -/

/-- **C8.**  When the post-inference board has no guess candidate — in
particular on the empty board — `get_next_move` returns no move (and the
guess engine returns none): the result is a clean `none`, the board state is
unchanged apart from mine-inference additions to `known_mines`, and on the
freshly initialised board the state is exactly unchanged. -/
theorem claim_C8_no_candidates_terminal (s : Solver) (hwf : WF s) (pick : Nat)
    (hnone : s.identify_mines.guessCandidates = []) :
    (s.get_next_move pick).2 = none ∧
    s.identify_mines.make_guess pick = none ∧
    (s.get_next_move pick).1.cells = s.cells ∧
    (s.get_next_move pick).1.rows = s.rows ∧
    (s.get_next_move pick).1.cols = s.cols ∧
    (s.get_next_move pick).1.mine_count = s.mine_count ∧
    (∀ p ∈ s.known_mines, p ∈ (s.get_next_move pick).1.known_mines) ∧
    ∀ rows cols mc pick2,
      (Solver.init rows cols mc).get_next_move pick2 = (Solver.init rows cols mc, none) := by
  have hsafe : s.identify_mines.find_safe_cell = none := by
    cases h : s.identify_mines.find_safe_cell with
    | none => rfl
    | some m =>
      exfalso
      obtain ⟨cell, hcell, hrev, hkm⟩ := find_safe_cell_mem (WF_identify_mines hwf) h
      have hmem : (m.row, m.col, s.identify_mines.calculate_risk m.row m.col)
          ∈ s.identify_mines.guessCandidates := by
        rw [Solver.guessCandidates, List.mem_filterMap]
        refine ⟨((m.row, m.col), cell), lookupCell_mem hcell, ?_⟩
        rw [if_pos ⟨by rw [Bool.not_eq_true]; exact hrev, hkm⟩]
      rw [hnone] at hmem
      cases hmem
  have hguess : s.identify_mines.make_guess pick = none :=
    (make_guess_eq_none_iff _ _).2 hnone
  have hmove : s.get_next_move pick = (s.identify_mines, none) := by
    rw [Solver.get_next_move, hsafe, hguess]
  refine ⟨by rw [hmove], hguess, by rw [hmove]; rfl, by rw [hmove]; rfl,
    by rw [hmove]; rfl, by rw [hmove]; rfl, ?_, ?_⟩
  · intro p hp
    rw [hmove]
    exact foldl_mineStep_mono s s.cells s.known_mines hp
  · intro rows cols mc pick2
    rfl

/-- **C8, witness.**  On `mineBoard` every unrevealed cell is a deduced mine
after inference, so there is no candidate and the selector reports no move;
the empty 9×9 board also yields no move. -/
theorem claim_C8_witness :
    (mineBoard.get_next_move 7).2 = none ∧
    (Solver.init 9 9 10).get_next_move 3 = (Solver.init 9 9 10, none) :=
  ⟨(claim_C8_no_candidates_terminal mineBoard (by decide) 7 (by decide)).1,
    (claim_C8_no_candidates_terminal mineBoard (by decide) 7
      (by decide)).2.2.2.2.2.2.2 9 9 10 3⟩

/-! ## Claim C2 -/

theorem safeFromCell_isSome {s : Solver} (hwf : WF s) {e : (Int × Int) × Cell}
    (hrev : e.snd.is_revealed = true)
    (hK : specK s s.known_mines e.fst = e.snd.adjacent_mines)
    {p : Int × Int} (hadj : adjacentTo e.fst p) (hb : inBounds s p)
    (hunrev : isUnrevealedAt s p) (hkm : p ∉ s.known_mines) :
    (safeFromCell s e).isSome = true := by
  obtain ⟨⟨r, c⟩, cell⟩ := e
  simp only [safeFromCell]
  rw [if_neg (not_not_intro hrev), if_pos (by rw [codeK_eq_specK s hwf r c]; exact hK)]
  obtain ⟨pc, hlook, hpunrev⟩ := hunrev
  have hpm : (p, pc) ∈ s.cells := lookupCell_mem hlook
  have hco : (p, pc).fst = ((p, pc).snd.row, (p, pc).snd.col) := hwf.2 (p, pc) hpm
  have hfind : ((s.get_neighbors r c).find? fun n =>
      !n.is_revealed && decide ((n.row, n.col) ∉ s.known_mines)).isSome = true := by
    rw [List.find?_isSome]
    refine ⟨pc, ?_, ?_⟩
    · have hent : (p, pc) ∈ specNeighborEntries s (r, c) :=
        List.mem_filter.2 ⟨hpm, by rw [decide_eq_true_eq]; exact ⟨hadj, hb⟩⟩
      exact (get_neighbors_perm s hwf r c).mem_iff.2 (List.mem_map_of_mem Prod.snd hent)
    · rw [Bool.and_eq_true, Bool.not_eq_true', decide_eq_true_eq]
      refine ⟨hpunrev, ?_⟩
      simp only at hco
      rw [← hco]
      exact hkm
  obtain ⟨n, hn⟩ := Option.isSome_iff_exists.1 hfind
  rw [hn]
  rfl

theorem findSome?_map_option {α β γ : Type} (l : List α) (f : α → Option β) (g : β → γ) :
    (l.findSome? f).map g = l.findSome? fun a => (f a).map g := by
  induction l with
  | nil => rfl
  | cons a rest ih =>
    rw [List.findSome?_cons, List.findSome?_cons]
    cases hf : f a with
    | some b => rfl
    | none => exact ih

theorem find?_filterMap_findSome? {α β : Type} (l : List α) (F : α → Option β)
    (p : β → Bool) :
    (l.filterMap F).find? p
      = l.findSome? fun a => (F a).bind fun b => if p b then some b else none := by
  induction l with
  | nil => rfl
  | cons a rest ih =>
    rw [List.filterMap_cons, List.findSome?_cons]
    cases hF : F a with
    | none => exact ih
    | some b =>
      by_cases hp : p b
      · rw [List.find?_cons_of_pos _ hp]
        simp [hp]
      · rw [List.find?_cons_of_neg _ (by simp [hp])]
        simp [hp, ih]

theorem find?_map_findSome? {α β : Type} (l : List α) (g : α → β) (q : β → Bool) :
    (l.map g).find? q = l.findSome? fun a => if q (g a) then some (g a) else none := by
  induction l with
  | nil => rfl
  | cons a rest ih =>
    rw [List.map_cons, List.findSome?_cons]
    by_cases hq : q (g a)
    · rw [List.find?_cons_of_pos _ hq]
      simp [hq]
    · rw [List.find?_cons_of_neg _ (by simp [hq])]
      simp [hq, ih]

theorem findSome?_congr {α β : Type} {l : List α} {f h : α → Option β}
    (H : ∀ a ∈ l, f a = h a) : l.findSome? f = l.findSome? h := by
  induction l with
  | nil => rfl
  | cons a rest ih =>
    rw [List.findSome?_cons, List.findSome?_cons, H a (List.mem_cons_self a rest)]
    cases hha : h a with
    | some b => rfl
    | none => exact ih fun x hx => H x (List.mem_cons_of_mem a hx)

/-- Per-cell positional characterisation of the safe-cell scan: the
coordinate of the move `safeFromCell` would return from a cell is exactly
the first qualifying neighbour of that cell in offset-scan order, provided
the cell is revealed and satisfied, and nothing otherwise. -/
theorem safeFromCell_coords_char (s : Solver) (hwf : WF s) (e : (Int × Int) × Cell) :
    (safeFromCell s e).map (fun m => (m.row, m.col))
      = if e.snd.is_revealed = true ∧
          specK s s.known_mines e.fst = e.snd.adjacent_mines
        then firstQualNbr s e.fst else none := by
  obtain ⟨⟨r, c⟩, cell⟩ := e
  simp only [safeFromCell]
  by_cases hrev : cell.is_revealed = true
  case neg =>
    rw [if_pos (by simpa using hrev), if_neg (by rintro ⟨h1, -⟩; exact hrev h1)]
    rfl
  case pos =>
    rw [if_neg (not_not_intro hrev)]
    by_cases hK : specK s s.known_mines (r, c) = cell.adjacent_mines
    case neg =>
      rw [if_neg (by rw [codeK_eq_specK s hwf r c]; exact hK),
        if_neg (by rintro ⟨-, h2⟩; exact hK h2)]
      rfl
    case pos =>
      rw [if_pos (by rw [codeK_eq_specK s hwf r c]; exact hK), if_pos ⟨hrev, hK⟩]
      rw [Option.map_map]
      simp only [Solver.get_neighbors, Solver.get_cell]
      rw [find?_filterMap_findSome?, findSome?_map_option, firstQualNbr,
        find?_map_findSome?]
      dsimp only
      apply findSome?_congr
      intro d hd
      by_cases hb : 0 ≤ r + d.1 ∧ r + d.1 < s.rows ∧ 0 ≤ c + d.2 ∧ c + d.2 < s.cols
      · rw [if_pos hb]
        cases hl : lookupCell s.cells (r + d.1, c + d.2) with
        | none =>
          rw [if_neg ?hqn]
          case hqn =>
            rw [decide_eq_true_eq]
            rintro ⟨-, ⟨cell2, hcell2, -⟩, -⟩
            rw [hl] at hcell2
            cases hcell2
          rfl
        | some n =>
          have hco : ((r + d.1, c + d.2) : Int × Int) = (n.row, n.col) :=
            hwf.2 _ (lookupCell_mem hl)
          have hred : ((some n).bind fun b =>
              if (!b.is_revealed && decide ((b.row, b.col) ∉ s.known_mines)) = true
              then some b else none)
              = (if (!n.is_revealed && decide ((n.row, n.col) ∉ s.known_mines)) = true
                then some n else none) := rfl
          rw [hred]
          by_cases hp : (!n.is_revealed && decide ((n.row, n.col) ∉ s.known_mines)) = true
          · rw [if_pos hp]
            rw [Bool.and_eq_true, Bool.not_eq_true', decide_eq_true_eq] at hp
            rw [if_pos ?hqp]
            case hqp =>
              rw [decide_eq_true_eq]
              refine ⟨hb, ⟨n, hl, hp.1⟩, ?_⟩
              rw [hco]
              exact hp.2
            show some ((n.row, n.col) : Int × Int) = some ((r + d.1, c + d.2) : Int × Int)
            rw [hco]
          · rw [if_neg hp, if_neg ?hqn2]
            case hqn2 =>
              rw [decide_eq_true_eq]
              rintro ⟨-, ⟨cell2, hcell2, hunrev⟩, hkm⟩
              rw [hl, Option.some.injEq] at hcell2
              subst hcell2
              apply hp
              rw [Bool.and_eq_true, Bool.not_eq_true', decide_eq_true_eq]
              refine ⟨hunrev, ?_⟩
              rw [← hco]
              exact hkm
            rfl
      · rw [if_neg hb, if_neg ?hqb]
        case hqb =>
          rw [decide_eq_true_eq]
          rintro ⟨hbnd, -, -⟩
          exact hb hbnd
        rfl

theorem safeFromCell_isSome_eq (s : Solver) (hwf : WF s) (e : (Int × Int) × Cell) :
    (safeFromCell s e).isSome = decide (producesAt s e) := by
  have h1 : (safeFromCell s e).isSome
      = ((safeFromCell s e).map (fun m => (m.row, m.col))).isSome := by
    cases safeFromCell s e <;> rfl
  rw [h1, safeFromCell_coords_char s hwf e]
  by_cases hc : e.snd.is_revealed = true ∧
      specK s s.known_mines e.fst = e.snd.adjacent_mines
  · rw [if_pos hc]
    cases hfq : firstQualNbr s e.fst with
    | none => simp [producesAt, hc.1, hc.2, hfq]
    | some p => simp [producesAt, hc.1, hc.2, hfq]
  · rw [if_neg hc]
    symm
    rw [Option.isSome_none, decide_eq_false_iff_not]
    rintro ⟨hrev, hK, -⟩
    exact hc ⟨hrev, hK⟩

theorem findSome?_find?_exists {α β : Type} {l : List α} {f : α → Option β}
    {p : α → Bool} (H : ∀ a ∈ l, (f a).isSome = p a) {m : β}
    (h : l.findSome? f = some m) : ∃ e, l.find? p = some e ∧ f e = some m := by
  induction l with
  | nil => cases h
  | cons a rest ih =>
    rw [List.findSome?_cons] at h
    cases hf : f a with
    | some b =>
      rw [hf] at h
      have hp : p a = true := by
        rw [← H a (List.mem_cons_self a rest), hf]
        rfl
      exact ⟨a, List.find?_cons_of_pos _ hp, by rw [hf]; exact h⟩
    | none =>
      rw [hf] at h
      have hp : ¬p a = true := by
        rw [← H a (List.mem_cons_self a rest), hf]
        simp
      obtain ⟨e, h1, h2⟩ := ih (fun x hx => H x (List.mem_cons_of_mem a hx)) h
      exact ⟨e, by rw [List.find?_cons_of_neg _ (by simpa using hp)]; exact h1, h2⟩

/-- **C2, counterexample.**  The claim asserts that the returned coordinate
is the first qualifying coordinate in the cell-mapping iteration order.  On
`orderBoard` the mapping order is `(0,1), (0,0), (1,1)`; both `(0,1)` and
`(0,0)` qualify (the satisfied cell is the revealed `(1,1)` with hint 0), so
the first qualifying coordinate in mapping order is `(0,1)` — but
`_find_safe_cell` iterates cells first and then the neighbour offsets of the
first satisfied cell, returning `(0,0)`. -/
theorem claim_C2_counterexample :
    (orderBoard.find_safe_cell.map fun m => (m.row, m.col)) = some ((0, 0) : Int × Int) ∧
    ((orderBoard.cells.map Prod.fst).find? fun p => decide (safeCoord orderBoard p))
      = some ((0, 1) : Int × Int) ∧
    ((0, 0) : Int × Int) ≠ ((0, 1) : Int × Int) :=
  ⟨by decide, by decide, by decide⟩

/-- **C2 (amended).**  `find_safe_cell` returns some move iff some qualifying
coordinate exists (a revealed observed cell whose known-mine neighbour count
equals its hint, with an observed unrevealed non-known-mine neighbour); any
returned move is a Reveal at a qualifying coordinate; and the returned
coordinate is exactly the first qualifying neighbour, in offset-scan order,
of the first cell in mapping-iteration order that is revealed, satisfied
(`K = N`) and has at least one qualifying neighbour — not, as originally
claimed, the first qualifying coordinate in mapping-iteration order. -/
theorem claim_C2_amended_find_safe_cell (s : Solver) (hwf : WF s) :
    (s.find_safe_cell = none ↔ ∀ p, ¬safeCoord s p) ∧
    (∀ m, s.find_safe_cell = some m →
      m.action = MoveAction.reveal ∧ safeCoord s (m.row, m.col)) ∧
    (∀ m, s.find_safe_cell = some m →
      ∃ e, s.cells.find? (fun e2 => decide (producesAt s e2)) = some e ∧
        firstQualNbr s e.fst = some (m.row, m.col)) := by
  have hsound : ∀ m, s.find_safe_cell = some m →
      m.action = MoveAction.reveal ∧ safeCoord s (m.row, m.col) := by
    intro m h
    refine ⟨find_safe_cell_action h, ?_⟩
    obtain ⟨e, he, hse⟩ := List.exists_of_findSome?_eq_some h
    obtain ⟨⟨r, c⟩, cell⟩ := e
    simp only [safeFromCell] at hse
    split_ifs at hse with h1 h2
    rw [Option.map_eq_some'] at hse
    obtain ⟨n, hn, hm⟩ := hse
    have hmem := List.mem_of_find?_eq_some hn
    have hpred := List.find?_some hn
    rw [Bool.and_eq_true, Bool.not_eq_true', decide_eq_true_eq] at hpred
    have hent := (get_neighbors_perm s hwf r c).mem_iff.1 hmem
    rw [List.mem_map] at hent
    obtain ⟨e2, he2, rfl⟩ := hent
    rw [specNeighborEntries, List.mem_filter, decide_eq_true_eq] at he2
    obtain ⟨he2c, hadj, hb⟩ := he2
    have hco := hwf.2 e2 he2c
    subst hm
    dsimp only
    refine ⟨((r, c), cell), he, h1, ?_, ?_, ?_, ?_, hpred.2⟩
    · rw [← codeK_eq_specK s hwf r c]
      exact h2
    · rw [← hco]
      exact hadj
    · rw [← hco]
      exact hb
    · refine ⟨e2.snd, ?_, hpred.1⟩
      rw [← hco]
      exact mem_lookupCell hwf.1 he2c
  have hpos : ∀ m, s.find_safe_cell = some m →
      ∃ e, s.cells.find? (fun e2 => decide (producesAt s e2)) = some e ∧
        firstQualNbr s e.fst = some (m.row, m.col) := by
    intro m h
    have H : ∀ e2 ∈ s.cells, (safeFromCell s e2).isSome = decide (producesAt s e2) :=
      fun e2 _ => safeFromCell_isSome_eq s hwf e2
    obtain ⟨e, he1, he2⟩ := findSome?_find?_exists H h
    refine ⟨e, he1, ?_⟩
    have hprod : producesAt s e := by
      have hfs := List.find?_some he1
      rwa [decide_eq_true_eq] at hfs
    have hchar := safeFromCell_coords_char s hwf e
    rw [if_pos ⟨hprod.1, hprod.2.1⟩] at hchar
    rw [← hchar, he2]
    rfl
  refine ⟨⟨?_, ?_⟩, hsound, hpos⟩
  · intro hnone p hp
    obtain ⟨e, he, hrev, hK, hadj, hb, hunrev, hkm⟩ := hp
    have hs := findSome?_isSome_of_mem he
      (safeFromCell_isSome hwf hrev hK hadj hb hunrev hkm)
    exact (Option.ne_none_iff_isSome.2 hs) hnone
  · intro hall
    cases h : s.find_safe_cell with
    | none => rfl
    | some m => exact absurd (hsound m h).2 (hall _)

/-- **C2 (amended), witness.** -/
theorem claim_C2_witness :
    WF orderBoard ∧
      ((orderBoard.find_safe_cell = none ↔ ∀ p, ¬safeCoord orderBoard p) ∧
        (∀ m, orderBoard.find_safe_cell = some m →
          m.action = MoveAction.reveal ∧ safeCoord orderBoard (m.row, m.col)) ∧
        (∀ m, orderBoard.find_safe_cell = some m →
          ∃ e, orderBoard.cells.find? (fun e2 => decide (producesAt orderBoard e2))
              = some e ∧
            firstQualNbr orderBoard e.fst = some (m.row, m.col))) :=
  ⟨by decide, claim_C2_amended_find_safe_cell orderBoard (by decide)⟩

/-! ## Claim C4 -/

theorem foldl_riskStep (s : Solver) (l : List Cell) (t0 : ℚ) (c0 : Nat) :
    l.foldl (riskStep s) (t0, c0)
      = (t0 + ((l.filter fun nb => decide (0 < unrevCount s nb)).map (localDensity s)).sum,
         c0 + (l.filter fun nb => decide (0 < unrevCount s nb)).length) := by
  induction l generalizing t0 c0 with
  | nil => simp
  | cons a rest ih =>
    rw [List.foldl_cons, riskStep, List.filter_cons]
    by_cases hP : 0 < unrevCount s a
    · rw [if_pos hP, if_pos (by simpa using hP), ih, List.map_cons, List.sum_cons,
        List.length_cons, Prod.mk.injEq]
      constructor
      · ring
      · omega
    · rw [if_neg hP, if_neg (by simpa using hP), ih]

theorem revealed_neighbors_perm (s : Solver) (hwf : WF s) (r c : Int) :
    List.Perm ((s.get_neighbors r c).filter fun n => n.is_revealed)
      (((specNeighborEntries s (r, c)).filter fun e => e.snd.is_revealed).map Prod.snd) := by
  have h := (get_neighbors_perm s hwf r c).filter fun n => n.is_revealed
  rw [List.filter_map] at h
  exact h

theorem unrevCount_eq_specU {s : Solver} (hwf : WF s) {e : (Int × Int) × Cell}
    (he : e ∈ s.cells) :
    unrevCount s e.snd = ((specU s s.known_mines e.fst).length : Int) := by
  have hco := hwf.2 e he
  rw [unrevCount, hco]
  norm_cast
  exact codeU_eq_specU_length s hwf e.snd.row e.snd.col s.known_mines

theorem localDensity_eq_specDensity {s : Solver} (hwf : WF s) {e : (Int × Int) × Cell}
    (he : e ∈ s.cells) : localDensity s e.snd = specDensity s e.fst e.snd := by
  have hco := hwf.2 e he
  rw [localDensity, specDensity, unrevCount_eq_specU hwf he]
  have hk : knownCount s e.snd = specK s s.known_mines e.fst := by
    rw [knownCount, hco]
    exact codeK_eq_specK s hwf e.snd.row e.snd.col s.known_mines
  rw [hk]

/-- The code's risk computation equals the spec §4.3 formula. -/
theorem calculate_risk_eq_specRisk (s : Solver) (hwf : WF s) (r c : Int) :
    s.calculate_risk r c = specRisk s (r, c) := by
  have hperm := revealed_neighbors_perm s hwf r c
  simp only [Solver.calculate_risk, specRisk]
  by_cases hemp : ((s.get_neighbors r c).filter fun n => n.is_revealed) = []
  · have h2 : ((specNeighborEntries s (r, c)).filter fun e => e.snd.is_revealed) = [] := by
      have hl := hperm.length_eq
      rw [hemp, List.length_map] at hl
      exact List.length_eq_zero.1 hl.symm
    rw [hemp, h2]
    rfl
  · have hemp2 : ¬((specNeighborEntries s (r, c)).filter fun e => e.snd.is_revealed) = [] := by
      intro hcon
      apply hemp
      have hl := hperm.length_eq
      rw [hcon] at hl
      simp only [List.map_nil, List.length_nil] at hl
      exact List.length_eq_zero.1 hl
    rw [if_neg (by simpa [List.isEmpty_iff] using hemp), if_neg hemp2, foldl_riskStep]
    simp only [zero_add]
    have hsub : ∀ e2 ∈ (specNeighborEntries s (r, c)).filter
        (fun e => e.snd.is_revealed), e2 ∈ s.cells := by
      intro e2 he2
      exact (List.filter_sublist s.cells).subset
        ((List.filter_sublist (specNeighborEntries s (r, c))).subset he2)
    have hfc : ((specNeighborEntries s (r, c)).filter fun e => e.snd.is_revealed).filter
          ((fun nb => decide (0 < unrevCount s nb)) ∘ Prod.snd)
        = ((specNeighborEntries s (r, c)).filter fun e => e.snd.is_revealed).filter
          (fun e => decide (0 < (specU s s.known_mines e.fst).length)) := by
      apply List.filter_congr
      intro e2 he2
      simp only [Function.comp_apply, decide_eq_decide]
      rw [unrevCount_eq_specU hwf (hsub e2 he2)]
      exact Int.natCast_pos
    have hqperm : List.Perm
        (((s.get_neighbors r c).filter fun n => n.is_revealed).filter
          (fun nb => decide (0 < unrevCount s nb)))
        ((((specNeighborEntries s (r, c)).filter fun e => e.snd.is_revealed).filter
          (fun e => decide (0 < (specU s s.known_mines e.fst).length))).map Prod.snd) := by
      have h := hperm.filter fun nb => decide (0 < unrevCount s nb)
      rw [List.filter_map, hfc] at h
      exact h
    by_cases hq : (((specNeighborEntries s (r, c)).filter fun e => e.snd.is_revealed).filter
        (fun e => decide (0 < (specU s s.known_mines e.fst).length))) = []
    · rw [if_pos hq]
      rw [hq] at hqperm
      simp only [List.map_nil] at hqperm
      rw [List.perm_nil.1 hqperm]
      rw [if_neg (by simp)]
    · rw [if_neg hq]
      have hlen : (((s.get_neighbors r c).filter fun n => n.is_revealed).filter
            (fun nb => decide (0 < unrevCount s nb))).length
          = ((((specNeighborEntries s (r, c)).filter fun e => e.snd.is_revealed).filter
            (fun e => decide (0 < (specU s s.known_mines e.fst).length)))).length := by
        rw [hqperm.length_eq, List.length_map]
      have hpos : 0 < (((s.get_neighbors r c).filter fun n => n.is_revealed).filter
          (fun nb => decide (0 < unrevCount s nb))).length := by
        rw [hlen]
        exact List.length_pos.2 hq
      rw [if_pos hpos]
      have hsum : ((((s.get_neighbors r c).filter fun n => n.is_revealed).filter
            (fun nb => decide (0 < unrevCount s nb))).map (localDensity s)).sum
          = (((((specNeighborEntries s (r, c)).filter fun e => e.snd.is_revealed).filter
            (fun e => decide (0 < (specU s s.known_mines e.fst).length)))).map
              fun e => specDensity s e.fst e.snd).sum := by
        rw [(hqperm.map (localDensity s)).sum_eq, List.map_map]
        congr 1
        apply List.map_congr_left
        intro e2 he2
        exact localDensity_eq_specDensity hwf
          (hsub e2 ((List.filter_sublist _).subset he2))
      rw [hsum, hlen]

/-- **C4.**  For every candidate cell the computed risk is: the global prior
`mine_count / (rows × cols)` when no observed revealed neighbour exists;
otherwise the average over every observed revealed neighbour `R` with a
positive count of observed unrevealed non-known-mine neighbours of
`(R.adjacent_mines − known-mine-neighbours of R) / (that count)`; and `1/2`
when no revealed neighbour qualifies — i.e. `_calculate_risk` equals the
spec-worded `specRisk` formula. -/
theorem claim_C4_risk_formula (s : Solver) (hwf : WF s) (r c : Int) :
    s.calculate_risk r c = specRisk s (r, c) :=
  calculate_risk_eq_specRisk s hwf r c

/-- **C4, witness.** -/
theorem claim_C4_witness :
    WF riskBoard ∧ riskBoard.calculate_risk 0 0 = specRisk riskBoard (0, 0) :=
  ⟨by decide, claim_C4_risk_formula riskBoard (by decide) 0 0⟩

/-! ## Claim C5 -/

theorem avg_in_unit {l : List ℚ} (hne : l ≠ [])
    (h01 : ∀ x ∈ l, 0 ≤ x ∧ x ≤ 1) :
    0 ≤ l.sum / (l.length : ℚ) ∧ l.sum / (l.length : ℚ) ≤ 1 := by
  have hlen : (0 : ℚ) < (l.length : ℚ) := by
    exact_mod_cast List.length_pos.2 hne
  constructor
  · exact div_nonneg (List.sum_nonneg fun x hx => (h01 x hx).1) (le_of_lt hlen)
  · rw [div_le_one hlen]
    have hs := List.sum_le_card_nsmul l 1 fun x hx => (h01 x hx).2
    simpa [nsmul_eq_mul] using hs

/-- **C5, counterexample.**  `riskBoard` has rows × cols = 4 > 0 and exactly
one candidate cell, `(0, 0)` (observed, unrevealed, not known-mine), yet its
risk is 8 ∉ [0, 1]: the revealed neighbour `(0, 1)` carries hint 8 while only
one unrevealed neighbour is observed, so the local density is 8/1. -/
theorem claim_C5_counterexample :
    0 < riskBoard.rows * riskBoard.cols ∧
    (riskBoard.guessCandidates.map fun t => (t.1, t.2.1)) = [((0 : Int), (0 : Int))] ∧
    riskBoard.calculate_risk 0 0 = 8 ∧ ¬(riskBoard.calculate_risk 0 0 ≤ 1) := by
  have h0 : riskBoard.calculate_risk 0 0
      = (0 + ((8 - (0 : Int) : Int) : ℚ) / (((1 : Nat) : Int) : ℚ)) / ((1 : Nat) : ℚ) := rfl
  have h8 : riskBoard.calculate_risk 0 0 = 8 := by
    rw [h0]
    norm_num
  refine ⟨by decide, by decide, h8, ?_⟩
  rw [h8]
  norm_num

/-- **C5 (amended).**  The claim fails on the code as stated: on partially
observed or inconsistent boards a revealed neighbour's hint may exceed what
its observed unrevealed neighbours can hold, making a local density — and
hence the risk — fall outside `[0, 1]` (see the counterexample).  The bound
does hold whenever `0 ≤ mine_count ≤ rows × cols` and every revealed
observed cell's hint is consistent with its observed neighbourhood
(`K ≤ adjacent_mines ≤ K + |U|`). -/
theorem claim_C5_amended_risk_in_unit_interval (s : Solver) (hwf : WF s)
    (hrc : 0 < s.rows * s.cols) (hmc0 : 0 ≤ s.mine_count)
    (hmc1 : s.mine_count ≤ s.rows * s.cols)
    (hcons : ∀ e ∈ s.cells, e.snd.is_revealed = true →
      specK s s.known_mines e.fst ≤ e.snd.adjacent_mines ∧
      e.snd.adjacent_mines ≤ specK s s.known_mines e.fst +
        ((specU s s.known_mines e.fst).length : Int))
    (r c : Int) :
    0 ≤ s.calculate_risk r c ∧ s.calculate_risk r c ≤ 1 := by
  rw [calculate_risk_eq_specRisk s hwf r c]
  simp only [specRisk]
  split_ifs with h1 h2
  · have hd : (0 : ℚ) < (s.rows : ℚ) * (s.cols : ℚ) := by
      have hd2 : (0 : ℚ) < ((s.rows * s.cols : Int) : ℚ) := by exact_mod_cast hrc
      rwa [Int.cast_mul] at hd2
    constructor
    · exact div_nonneg (by exact_mod_cast hmc0) (le_of_lt hd)
    · rw [div_le_one hd]
      have hd3 : ((s.mine_count : Int) : ℚ) ≤ ((s.rows * s.cols : Int) : ℚ) := by
        exact_mod_cast hmc1
      rwa [Int.cast_mul] at hd3
  · norm_num
  · have hq : ∀ x ∈ (((specNeighborEntries s (r, c)).filter fun e => e.snd.is_revealed).filter
        fun e => decide (0 < (specU s s.known_mines e.fst).length)).map
          (fun e => specDensity s e.fst e.snd), 0 ≤ x ∧ x ≤ 1 := by
      intro x hx
      rw [List.mem_map] at hx
      obtain ⟨e, he, rfl⟩ := hx
      rw [List.mem_filter, decide_eq_true_eq] at he
      obtain ⟨he2, hU⟩ := he
      rw [List.mem_filter] at he2
      obtain ⟨he3, hrev⟩ := he2
      have hecells := (List.filter_sublist s.cells).subset he3
      obtain ⟨hK1, hK2⟩ := hcons e hecells (by simpa using hrev)
      have hUc : (0 : ℚ) < (((specU s s.known_mines e.fst).length : Int) : ℚ) := by
        exact_mod_cast hU
      rw [specDensity]
      constructor
      · apply div_nonneg ?_ (le_of_lt hUc)
        have : (0 : Int) ≤ e.snd.adjacent_mines - specK s s.known_mines e.fst := by omega
        exact_mod_cast this
      · rw [div_le_one hUc]
        have : e.snd.adjacent_mines - specK s s.known_mines e.fst
            ≤ ((specU s s.known_mines e.fst).length : Int) := by omega
        exact_mod_cast this
    have hne : (((specNeighborEntries s (r, c)).filter fun e => e.snd.is_revealed).filter
        fun e => decide (0 < (specU s s.known_mines e.fst).length)).map
          (fun e => specDensity s e.fst e.snd) ≠ [] := by
      intro hcon
      rw [List.map_eq_nil_iff] at hcon
      exact h2 hcon
    have hres := avg_in_unit hne hq
    rw [List.length_map] at hres
    exact hres

/-- **C5 (amended), witness.**  `consistentBoard` satisfies all consistency
hypotheses and the risk of its candidate `(0, 0)` lies in `[0, 1]`. -/
theorem claim_C5_witness :
    WF consistentBoard ∧
    (0 ≤ consistentBoard.calculate_risk 0 0 ∧ consistentBoard.calculate_risk 0 0 ≤ 1) :=
  ⟨by decide, claim_C5_amended_risk_in_unit_interval consistentBoard (by decide)
    (by decide) (by decide) (by decide) (by decide) 0 0⟩

/-! ## Claim C6 -/

/-- **C6.**  Whenever the guess engine returns a move, for every outcome of
the random tie-break (every `pick`), the returned coordinate comes from one
of the first 5 entries (all, when fewer than 5) of the candidate list stably
sorted ascending by risk; that sorted list is indeed sorted by risk and is a
permutation of the candidate list (all observed unrevealed non-known-mine
cells), so the selection never leaves the 5 lowest-risk entries. -/
theorem claim_C6_guess_in_bottom5 (s : Solver) (pick : Nat) (m : SolverMove)
    (h : s.make_guess pick = some m) :
    List.Sorted riskLE (s.guessCandidates.insertionSort riskLE) ∧
    List.Perm (s.guessCandidates.insertionSort riskLE) s.guessCandidates ∧
    ∃ t ∈ (s.guessCandidates.insertionSort riskLE).take 5,
      m.row = t.1 ∧ m.col = t.2.1 := by
  refine ⟨List.sorted_insertionSort riskLE _, List.perm_insertionSort riskLE _, ?_⟩
  simp only [Solver.make_guess] at h
  split_ifs at h with hne
  have h2 := Option.some.inj h
  subst h2
  dsimp only
  have hcne : s.guessCandidates ≠ [] := fun hc => hne (by rw [hc]; rfl)
  have hlen : 0 < ((s.guessCandidates.insertionSort riskLE).take 5).length := by
    rw [List.length_take, List.length_insertionSort]
    have hpos := List.length_pos.2 hcne
    omega
  have hidx := Nat.mod_lt pick hlen
  refine ⟨((s.guessCandidates.insertionSort riskLE).take 5).getD
    (pick % ((s.guessCandidates.insertionSort riskLE).take 5).length) (0, 0, 0),
    ?_, rfl, rfl⟩
  rw [List.getD_eq_getElem _ (0, 0, 0) hidx]
  exact List.getElem_mem hidx

/-- **C6, witness.**  On `guessBoard` the single candidate `(0, 0)` is
chosen and indeed lies in the bottom-5 slice of the sorted candidate list. -/
theorem claim_C6_witness :
    guessBoard.make_guess 0 = some gMove ∧
    ∃ t ∈ (guessBoard.guessCandidates.insertionSort riskLE).take 5,
      gMove.row = t.1 ∧ gMove.col = t.2.1 := by
  have hm : guessBoard.make_guess 0 = some gMove := by
    have h5 : guessBoard.make_guess 0
        = some { row := 0, col := 0, action := MoveAction.reveal,
                 reason := guessReason (guessBoard.calculate_risk 0 0) } := rfl
    have hr0 : guessBoard.calculate_risk 0 0
        = ((1 : Int) : ℚ) / (((2 : Int) : ℚ) * ((2 : Int) : ℚ)) := rfl
    have hr : guessBoard.calculate_risk 0 0 = 1 / 4 := by
      rw [hr0]
      norm_num
    rw [h5, hr, gMove]
    have hround : round ((1 : ℚ) / 4 * 100) = 25 := by
      rw [show ((1 : ℚ) / 4 * 100) = ((25 : ℤ) : ℚ) by norm_num, round_intCast]
    rw [guessReason, hround]
    rfl
  exact ⟨hm, (claim_C6_guess_in_bottom5 guessBoard 0 gMove hm).2.2⟩

/-! ## Claim C10 -/

theorem lookupCell_reflag (f : Int → Int → Bool) (l : List ((Int × Int) × Cell))
    (k : Int × Int) :
    lookupCell (l.map fun e => (e.fst, { e.snd with is_flagged := f e.snd.row e.snd.col })) k
      = (lookupCell l k).map fun cell => { cell with is_flagged := f cell.row cell.col } := by
  induction l with
  | nil => rfl
  | cons a rest ih =>
    rw [List.map_cons, lookupCell, lookupCell]
    dsimp only
    split_ifs with hk
    · rfl
    · exact ih

theorem get_neighbors_reflag (f : Int → Int → Bool) (s : Solver) (r c : Int) :
    (reflag f s).get_neighbors r c
      = (s.get_neighbors r c).map fun cell =>
          { cell with is_flagged := f cell.row cell.col } := by
  simp only [Solver.get_neighbors, Solver.get_cell, reflag]
  rw [List.map_filterMap]
  congr 1
  funext d
  split_ifs with hb
  · rw [lookupCell_reflag]
  · rfl

theorem unrevCount_reflag (f : Int → Int → Bool) (s : Solver) (km : List (Int × Int))
    (nb : Cell) :
    unrevCount { reflag f s with known_mines := km }
        { nb with is_flagged := f nb.row nb.col }
      = unrevCount { s with known_mines := km } nb := by
  simp only [unrevCount]
  dsimp only
  rw [show ({ reflag f s with known_mines := km } : Solver).get_neighbors nb.row nb.col
      = (reflag f { s with known_mines := km }).get_neighbors nb.row nb.col from rfl]
  rw [get_neighbors_reflag, List.filter_map, List.length_map]
  rfl

theorem knownCount_reflag (f : Int → Int → Bool) (s : Solver) (km : List (Int × Int))
    (nb : Cell) :
    knownCount { reflag f s with known_mines := km }
        { nb with is_flagged := f nb.row nb.col }
      = knownCount { s with known_mines := km } nb := by
  simp only [knownCount]
  dsimp only
  rw [show ({ reflag f s with known_mines := km } : Solver).get_neighbors nb.row nb.col
      = (reflag f { s with known_mines := km }).get_neighbors nb.row nb.col from rfl]
  rw [get_neighbors_reflag, List.filter_map, List.length_map]
  rfl

theorem isEmpty_map {α β : Type} (f : α → β) (l : List α) :
    (l.map f).isEmpty = l.isEmpty := by
  cases l <;> rfl

theorem riskStep_reflag (f : Int → Int → Bool) (s : Solver) (tc : ℚ × Nat) (nb : Cell) :
    riskStep (reflag f s) tc { nb with is_flagged := f nb.row nb.col }
      = riskStep s tc nb := by
  have hu : unrevCount (reflag f s) { nb with is_flagged := f nb.row nb.col }
      = unrevCount s nb := unrevCount_reflag f s s.known_mines nb
  have hk : knownCount (reflag f s) { nb with is_flagged := f nb.row nb.col }
      = knownCount s nb := knownCount_reflag f s s.known_mines nb
  simp only [riskStep, localDensity, hu, hk]

theorem calculate_risk_reflag (f : Int → Int → Bool) (s : Solver) (r c : Int) :
    (reflag f s).calculate_risk r c = s.calculate_risk r c := by
  simp only [Solver.calculate_risk]
  have hcomp : ((fun n : Cell => n.is_revealed) ∘ fun cell =>
      { cell with is_flagged := f cell.row cell.col }) = fun n : Cell => n.is_revealed := rfl
  have hfold : ∀ (X : List Cell) (init : ℚ × Nat),
      (X.map fun cell => { cell with is_flagged := f cell.row cell.col }).foldl
        (riskStep (reflag f s)) init = X.foldl (riskStep s) init := by
    intro X
    induction X with
    | nil => intro init; rfl
    | cons a rest ih =>
      intro init
      rw [List.map_cons, List.foldl_cons, List.foldl_cons, riskStep_reflag]
      exact ih _
  rw [get_neighbors_reflag, List.filter_map, hcomp, isEmpty_map, hfold]
  rfl

theorem safeFromCell_reflag (f : Int → Int → Bool) (s : Solver) (e : (Int × Int) × Cell) :
    safeFromCell (reflag f s) (e.fst, { e.snd with is_flagged := f e.snd.row e.snd.col })
      = safeFromCell s e := by
  obtain ⟨⟨r, c⟩, cell⟩ := e
  simp only [safeFromCell]
  have hp1 : ((fun n : Cell => decide ((n.row, n.col) ∈ s.known_mines)) ∘ fun cell =>
      { cell with is_flagged := f cell.row cell.col })
      = fun n : Cell => decide ((n.row, n.col) ∈ s.known_mines) := rfl
  have hp2 : ((fun n : Cell => !n.is_revealed && decide ((n.row, n.col) ∉ s.known_mines))
      ∘ fun cell => { cell with is_flagged := f cell.row cell.col })
      = fun n : Cell => !n.is_revealed && decide ((n.row, n.col) ∉ s.known_mines) := rfl
  rw [show (reflag f s).known_mines = s.known_mines from rfl,
    get_neighbors_reflag, List.filter_map, hp1, List.length_map, List.find?_map, hp2,
    Option.map_map]
  rfl

theorem find_safe_cell_reflag (f : Int → Int → Bool) (s : Solver) :
    (reflag f s).find_safe_cell = s.find_safe_cell := by
  have hcells : (reflag f s).cells = s.cells.map
      (fun e => (e.fst, { e.snd with is_flagged := f e.snd.row e.snd.col })) := rfl
  rw [Solver.find_safe_cell, Solver.find_safe_cell, hcells, List.findSome?_map]
  congr 1
  funext e
  exact safeFromCell_reflag f s e

theorem guessCandidates_reflag (f : Int → Int → Bool) (s : Solver) :
    (reflag f s).guessCandidates = s.guessCandidates := by
  have hcells : (reflag f s).cells = s.cells.map
      (fun e => (e.fst, { e.snd with is_flagged := f e.snd.row e.snd.col })) := rfl
  rw [Solver.guessCandidates, Solver.guessCandidates, hcells, List.filterMap_map]
  congr 1
  funext e
  show (if ¬e.snd.is_revealed ∧ e.fst ∉ s.known_mines then
      some (e.fst.1, e.fst.2, (reflag f s).calculate_risk e.fst.1 e.fst.2) else none)
    = (if ¬e.snd.is_revealed ∧ e.fst ∉ s.known_mines then
      some (e.fst.1, e.fst.2, s.calculate_risk e.fst.1 e.fst.2) else none)
  rw [calculate_risk_reflag]

theorem make_guess_reflag (f : Int → Int → Bool) (s : Solver) (pick : Nat) :
    (reflag f s).make_guess pick = s.make_guess pick := by
  rw [Solver.make_guess, Solver.make_guess, guessCandidates_reflag]

theorem mineStep_reflag (f : Int → Int → Bool) (s : Solver) (km : List (Int × Int))
    (e : (Int × Int) × Cell) :
    mineStep (reflag f s) km (e.fst, { e.snd with is_flagged := f e.snd.row e.snd.col })
      = mineStep s km e := by
  obtain ⟨⟨r, c⟩, cell⟩ := e
  simp only [mineStep]
  have hp1 : ((fun n : Cell => !n.is_revealed && decide ((n.row, n.col) ∉ km))
      ∘ fun cell => { cell with is_flagged := f cell.row cell.col })
      = fun n : Cell => !n.is_revealed && decide ((n.row, n.col) ∉ km) := rfl
  have hp2 : ((fun n : Cell => decide ((n.row, n.col) ∈ km)) ∘ fun cell =>
      { cell with is_flagged := f cell.row cell.col })
      = fun n : Cell => decide ((n.row, n.col) ∈ km) := rfl
  have hp3 : ((fun n : Cell => (n.row, n.col)) ∘ fun cell =>
      { cell with is_flagged := f cell.row cell.col })
      = fun n : Cell => (n.row, n.col) := rfl
  rw [get_neighbors_reflag]
  simp only [List.filter_map, List.map_map, List.length_map, hp1, hp2, hp3]

theorem identify_mines_reflag (f : Int → Int → Bool) (s : Solver) :
    (reflag f s).identify_mines = reflag f s.identify_mines := by
  simp only [Solver.identify_mines, reflag]
  congr 1
  rw [List.foldl_map]
  congr 1
  funext km e
  exact mineStep_reflag f s km e

theorem get_next_move_reflag (f : Int → Int → Bool) (s : Solver) (pick : Nat) :
    ((reflag f s).get_next_move pick).2 = (s.get_next_move pick).2 := by
  rw [Solver.get_next_move, Solver.get_next_move, identify_mines_reflag,
    find_safe_cell_reflag, make_guess_reflag]
  cases h : s.identify_mines.find_safe_cell <;> simp [h]

/-- **C10.**  Every move `get_next_move` returns, on the deduced-safe and on
the guess path alike, targets a coordinate that is present in the cell
mapping, whose observed cell is unrevealed, and that is not in `known_mines`
after this call's mine inference.  Moreover `is_flagged` is never consulted:
re-observing every cell with arbitrary flag values yields the identical
move, so a flagged-but-unrevealed cell stays eligible. -/
theorem claim_C10_moves_target_valid (s : Solver) (hwf : WF s) (pick : Nat) :
    (∀ m, (s.get_next_move pick).2 = some m →
      ∃ cell, (s.get_next_move pick).1.get_cell m.row m.col = some cell ∧
        cell.is_revealed = false ∧
        (m.row, m.col) ∉ (s.get_next_move pick).1.known_mines) ∧
    ∀ f : Int → Int → Bool,
      ((reflag f s).get_next_move pick).2 = (s.get_next_move pick).2 := by
  constructor
  · intro m hm
    have h1 : (s.get_next_move pick).1 = s.identify_mines := by
      rw [Solver.get_next_move]
      cases h : s.identify_mines.find_safe_cell <;> simp [h]
    rw [h1]
    rw [Solver.get_next_move] at hm
    cases h : s.identify_mines.find_safe_cell with
    | some m0 =>
      rw [h] at hm
      simp only [Option.some.injEq] at hm
      subst hm
      exact find_safe_cell_mem (WF_identify_mines hwf) h
    | none =>
      rw [h] at hm
      exact make_guess_mem (WF_identify_mines hwf) hm
  · intro f
    exact get_next_move_reflag f s pick

/-- **C10, witness.**  On `guessBoard` the single observed cell is flagged
and unrevealed; it is still returned, it is in the mapping, unrevealed, not
a known mine, and erasing all flags leaves the move unchanged. -/
theorem claim_C10_witness :
    (guessBoard.get_next_move 0).2 = some gMove ∧
    (∃ cell, (guessBoard.get_next_move 0).1.get_cell gMove.row gMove.col = some cell ∧
      cell.is_revealed = false ∧
      (gMove.row, gMove.col) ∉ (guessBoard.get_next_move 0).1.known_mines) ∧
    ((reflag (fun _ _ => false) guessBoard).get_next_move 0).2
      = (guessBoard.get_next_move 0).2 := by
  have hm : (guessBoard.get_next_move 0).2 = some gMove := by
    have h5 : (guessBoard.get_next_move 0).2
        = some { row := 0, col := 0, action := MoveAction.reveal,
                 reason := guessReason (guessBoard.identify_mines.calculate_risk 0 0) } :=
      rfl
    have hr0 : guessBoard.identify_mines.calculate_risk 0 0
        = ((1 : Int) : ℚ) / (((2 : Int) : ℚ) * ((2 : Int) : ℚ)) := rfl
    have hr : guessBoard.identify_mines.calculate_risk 0 0 = 1 / 4 := by
      rw [hr0]
      norm_num
    rw [h5, hr, gMove]
    have hround : round ((1 : ℚ) / 4 * 100) = 25 := by
      rw [show ((1 : ℚ) / 4 * 100) = ((25 : ℤ) : ℚ) by norm_num, round_intCast]
    rw [guessReason, hround]
    rfl
  refine ⟨hm, (claim_C10_moves_target_valid guessBoard (by decide) 0).1 gMove hm,
    (claim_C10_moves_target_valid guessBoard (by decide) 0).2 (fun _ _ => false)⟩

end Minesweeper
